import Mathlib

/-!
Verification model of the zed extension store reconciliation engine
(`crates/extension/src/extension_store.rs`), shallowly embedded in Lean.

Embedding conventions:
* `BTreeMap<Arc<str>, V>` values are modelled as key-sorted association lists
  `List (String × V)`; `HashSet<Arc<str>>` as a duplicate-free `List String` or
  as a membership predicate `String → Bool`.
* `PathBuf` and `Arc<str>` are modelled as `String`.
* Fallible filesystem reads are modelled as `Option` inputs: `none` stands for
  the failing read/parse, `some` for the successful one.
* The async control flow of one spawned task is modelled by passing the state
  it mutates explicitly and by an outcome parameter selecting which of its
  await points fails.
-/

namespace ExtensionStore

/-! ### Key order

`keyLt` mirrors the byte-lexicographic `Ord` instance of Rust's `str`, which
drives both `BTreeMap` iteration order and the `old_key.cmp(&new_key)` calls in
the diff merge-walk. -/

/-- Lexicographic strict order on character lists. -/
def charsLt : List Char → List Char → Bool
  | [], [] => false
  | [], _ :: _ => true
  | _ :: _, [] => false
  | a :: as, b :: bs => if a < b then true else if b < a then false else charsLt as bs

/-- Strict key order on `String`, as used by `BTreeMap<Arc<str>, _>`. -/
def keyLt (a b : String) : Bool := charsLt a.data b.data

/-- Association-list lookup, mirroring `BTreeMap::get`. -/
def lookupKV {T : Type} (k : String) : List (String × T) → Option T
  | [] => none
  | (k', v) :: rest => if k = k' then some v else lookupKV k rest

/-- Association-list insert keeping keys sorted, mirroring `BTreeMap::insert`
(replaces the stored value when the key is already present). -/
def insertKV {T : Type} (k : String) (v : T) : List (String × T) → List (String × T)
  | [] => [(k, v)]
  | (k', v') :: rest =>
    if keyLt k k' then (k, v) :: (k', v') :: rest
    else if k = k' then (k, v) :: rest
    else (k', v') :: insertKV k v rest

/-- The keys of an association list are strictly ascending — the invariant of
`BTreeMap` iteration order. -/
def sortedKeys {T : Type} : List (String × T) → Bool
  | [] => true
  | [_] => true
  | a :: b :: rest => keyLt a.1 b.1 && sortedKeys ((b :: rest) : List (String × T))

/-- A list of keys is strictly ascending. -/
def sortedList : List String → Bool
  | [] => true
  | [_] => true
  | a :: b :: rest => keyLt a b && sortedList (b :: rest)

/-! ### Data model -/

/-- Model of `LibManifestEntry`: the optional compiled entry point of an extension. -/
structure LibManifestEntry where
  path : String
deriving DecidableEq

/-- Model of `GrammarManifestEntry`: source repository and revision of a grammar. -/
structure GrammarManifestEntry where
  repository : String
  rev : String
deriving DecidableEq

/-- Model of `LanguageServerManifestEntry`. -/
structure LanguageServerManifestEntry where
  name : String
  language : String
deriving DecidableEq

/-- Model of `language::LanguageMatcher` (suffixes / first-line pattern). -/
structure LanguageMatcher where
  path_suffixes : List String
  first_line_pattern : Option String
deriving DecidableEq

/-- Model of `ExtensionManifest`: the parsed `extension.json` of one extension. -/
structure ExtensionManifest where
  id : String
  name : String
  version : String
  description : Option String
  repository : Option String
  authors : List String
  lib : Option LibManifestEntry
  themes : List String
  languages : List String
  grammars : List (String × GrammarManifestEntry)
  language_servers : List (String × LanguageServerManifestEntry)
deriving DecidableEq

/-- Model of `ExtensionIndexEntry`: a theme entry of the index. -/
structure ExtensionIndexEntry where
  extension : String
  path : String
deriving DecidableEq

/-- Model of `ExtensionIndexLanguageEntry`: a language entry of the index. -/
structure ExtensionIndexLanguageEntry where
  extension : String
  path : String
  matcher : LanguageMatcher
  grammar : Option String
deriving DecidableEq

/-- Model of `ExtensionIndex`: the authoritative index (three `BTreeMap`s). -/
structure ExtensionIndex where
  extensions : List (String × ExtensionManifest)
  themes : List (String × ExtensionIndexEntry)
  languages : List (String × ExtensionIndexLanguageEntry)
deriving DecidableEq

/-- The empty index (`ExtensionIndex::default()`). -/
def emptyIndex : ExtensionIndex := ⟨[], [], []⟩

/-- Referential integrity of an index: every theme and language entry's
`extension` field is a key of `extensions`. -/
def refIntegrity (index : ExtensionIndex) : Bool :=
  index.themes.all (fun p => (lookupKV p.2.extension index.extensions).isSome) &&
  index.languages.all (fun p => (lookupKV p.2.extension index.extensions).isSome)

/-! ### The diff merge-walk (`manifest_updated`'s inner `fn diff`) -/

/-- The merge-walk `diff` helper defined inside `ExtensionStore::manifest_updated`:
walks two key-sorted association lists and the modified-key set, producing
`(removed_keys, added_keys)`. -/
def diff {T : Type} [DecidableEq T] :
    List (String × T) → List (String × T) → (String → Bool) → List String × List String
  | [], [], _ => ([], [])
  | [], n :: nw, m =>
    let p := diff [] nw m
    (p.1, n.1 :: p.2)
  | o :: od, [], m =>
    let p := diff od [] m
    (o.1 :: p.1, p.2)
  | o :: od, n :: nw, m =>
    if o.1 = n.1 then
      let p := diff od nw m
      if o.2 ≠ n.2 ∨ m o.1 = true then (o.1 :: p.1, n.1 :: p.2) else p
    else if keyLt o.1 n.1 then
      let p := diff od (n :: nw) m
      (o.1 :: p.1, p.2)
    else
      let p := diff (o :: od) nw m
      (p.1, n.1 :: p.2)
termination_by old nw _ => old.length + nw.length

/-! ### `manifest_updated`: derived per-category edit lists

In the source, `diff` is applied to `old_index.extensions` / `new_index.extensions`
only; the theme and language lists are then derived from membership of the
owning extension id in `extensions_to_unload` / `extensions_to_load`. -/

/-- The pair `(extensions_to_unload, extensions_to_load)`. -/
def extensionsDiff (old_index new_index : ExtensionIndex) (modified : String → Bool) :
    List String × List String :=
  diff old_index.extensions new_index.extensions modified

/-- Model of `themes_to_remove`: old theme keys whose owning extension is unloaded. -/
def themesToRemove (old_index : ExtensionIndex) (toUnload : List String) : List String :=
  (old_index.themes.filter (fun p => toUnload.contains p.2.extension)).map Prod.fst

/-- Model of `languages_to_remove`: old language keys whose owning extension is unloaded. -/
def languagesToRemove (old_index : ExtensionIndex) (toUnload : List String) : List String :=
  (old_index.languages.filter (fun p => toUnload.contains p.2.extension)).map Prod.fst

/-- Model of `languages_to_add`: new language entries whose owning extension is loaded. -/
def languagesToAdd (new_index : ExtensionIndex) (toLoad : List String) :
    List (String × ExtensionIndexLanguageEntry) :=
  new_index.languages.filter (fun p => toLoad.contains p.2.extension)

/-- Model of `themes_to_add`: for every loaded extension present in the new index, the
theme paths declared by its manifest, tagged with the extension id. -/
def themesToAdd (new_index : ExtensionIndex) (toLoad : List String) :
    List (String × String) :=
  toLoad.foldl
    (fun acc extension_id =>
      match lookupKV extension_id new_index.extensions with
      | none => acc
      | some mf => acc ++ mf.themes.map (fun theme_path => (extension_id, theme_path)))
    []

/-! ### `add_extension_to_index` (the manifest parser / index builder) -/

/-- Model of `language::LanguageConfig`, restricted to the fields the store reads. -/
structure LanguageConfig where
  name : String
  grammar : Option String
  matcher : LanguageMatcher
deriving DecidableEq

/-- One entry of `read_dir(<extension_dir>/languages)`: its path relative to the
extension directory, whether metadata reports a directory, and the parse result
of its `config.toml` (`none` models a failing `fs.load` or TOML parse, which the
source propagates with `?`). A metadata read failure is folded into
`is_dir = false`, since both are skipped by `continue`. -/
structure LanguageDirInput where
  relative_path : String
  is_dir : Bool
  config : Option LanguageConfig
deriving DecidableEq

/-- One entry of `read_dir(<extension_dir>/themes)`: its relative path and the
result of `ThemeRegistry::read_user_theme` (the list of theme names the file's
family declares; `none` models a parse failure, which the source logs and
skips). -/
structure ThemeFileInput where
  relative_path : String
  theme_names : Option (List String)
deriving DecidableEq

/-- One extension directory as seen by `add_extension_to_index`: its file name,
the parse result of `extension.json`, and the two `read_dir` listings (`none`
models a failing `read_dir`, which the source skips with `if let Ok`; a `none`
element models an `Err` directory entry, which the source propagates with `?`). -/
structure ExtensionDirInput where
  dir_name : Option String
  manifest : Option ExtensionManifest
  languageDirs : Option (List (Option LanguageDirInput))
  themeFiles : Option (List (Option ThemeFileInput))
deriving DecidableEq

/-- The declared-path list update performed for each parsed sub-entry:
`if list.contains(&relative_path) { list.push(relative_path) }`. -/
def updateDeclaredPaths (declared : List String) (relative_path : String) : List String :=
  if declared.contains relative_path then declared ++ [relative_path] else declared

/-- The `languages/` loop of `add_extension_to_index`. Returns the updated
manifest and index, and whether the loop ran to completion (`false` models an
error propagated with `?`, which aborts the whole function). -/
def processLanguageDirs (extension_name : String) :
    List (Option LanguageDirInput) → ExtensionManifest → ExtensionIndex →
    ExtensionManifest × ExtensionIndex × Bool
  | [], mf, index => (mf, index, true)
  | none :: _, mf, index => (mf, index, false)
  | some l :: rest, mf, index =>
    if !l.is_dir then processLanguageDirs extension_name rest mf index
    else
      match l.config with
      | none => (mf, index, false)
      | some config =>
        let mf' := { mf with languages := updateDeclaredPaths mf.languages l.relative_path }
        let index' :=
          { index with
            languages :=
              insertKV config.name
                ⟨extension_name, l.relative_path, config.matcher, config.grammar⟩
                index.languages }
        processLanguageDirs extension_name rest mf' index'

/-- The `themes/` loop of `add_extension_to_index`. A theme file whose parse
fails is skipped (`log_err` + `continue`); an `Err` directory entry aborts. -/
def processThemeFiles (extension_name : String) :
    List (Option ThemeFileInput) → ExtensionManifest → ExtensionIndex →
    ExtensionManifest × ExtensionIndex × Bool
  | [], mf, index => (mf, index, true)
  | none :: _, mf, index => (mf, index, false)
  | some t :: rest, mf, index =>
    match t.theme_names with
    | none => processThemeFiles extension_name rest mf index
    | some names =>
      let mf' := { mf with themes := updateDeclaredPaths mf.themes t.relative_path }
      let index' :=
        { index with
          themes :=
            names.foldl
              (fun acc theme_name =>
                insertKV theme_name ⟨extension_name, t.relative_path⟩ acc)
              index.themes }
      processThemeFiles extension_name rest mf' index'

/-- Model of `ExtensionStore::add_extension_to_index`: parses one extension directory
into the (mutably borrowed) index. Returns the index as mutated and whether the
function returned `Ok` — on an `Err` the mutations already performed remain. -/
def add_extension_to_index (input : ExtensionDirInput) (index : ExtensionIndex) :
    ExtensionIndex × Bool :=
  match input.dir_name with
  | none => (index, false)
  | some extension_name =>
    match input.manifest with
    | none => (index, false)
    | some extension_manifest =>
      let step1 :=
        match input.languageDirs with
        | none => (extension_manifest, index, true)
        | some ls => processLanguageDirs extension_name ls extension_manifest index
      if !step1.2.2 then (step1.2.1, false)
      else
        let step2 :=
          match input.themeFiles with
          | none => (step1.1, step1.2.1, true)
          | some ts => processThemeFiles extension_name ts step1.1 step1.2.1
        if !step2.2.2 then (step2.2.1, false)
        else
          ({ step2.2.1 with
             extensions := insertKV extension_name step2.1 step2.2.1.extensions },
           true)

/-- The scan loop of `ExtensionStore::reload`: walks the installed-extensions
directory and indexes every child directory, logging and skipping failures. -/
def buildIndex (dirs : List ExtensionDirInput) : ExtensionIndex :=
  dirs.foldl (fun index dir => (add_extension_to_index dir index).1) emptyIndex

/-! ### Install / uninstall manager -/

/-- Model of `HashSet::insert` on a duplicate-free id list. -/
def insertSet (extension_id : String) (s : List String) : List String :=
  if s.contains extension_id then s else extension_id :: s

/-- Model of `HashSet::remove` on a duplicate-free id list. -/
def removeSet (extension_id : String) (s : List String) : List String :=
  s.filter (fun x => x ≠ extension_id)

/-- The store state touched by `install_extension` / `uninstall_extension`. -/
structure OpsState where
  extensions_being_installed : List String
  extensions_being_uninstalled : List String
  reloads_triggered : Nat
deriving DecidableEq

/-- Which await point of the spawned install task fails, if any. -/
inductive InstallOutcome where
  | downloadErr
  | unpackErr
  | success
deriving DecidableEq

/-- Model of `ExtensionStore::install_extension`: unconditionally inserts the id into
`extensions_being_installed` and spawns the download task; the task removes the
id and calls `reload` only after download and unpack both succeed (`?` returns
early otherwise, and `detach_and_log_err` merely logs). The returned boolean
records that the operation was started. -/
def install_extension (extension_id : String) (outcome : InstallOutcome) (s : OpsState) :
    OpsState × Bool :=
  let s1 := { s with
    extensions_being_installed := insertSet extension_id s.extensions_being_installed }
  match outcome with
  | .downloadErr => (s1, true)
  | .unpackErr => (s1, true)
  | .success =>
    ({ s1 with
       extensions_being_installed := removeSet extension_id s1.extensions_being_installed,
       reloads_triggered := s1.reloads_triggered + 1 },
     true)

/-- Which await point of the spawned uninstall task fails, if any. -/
inductive UninstallOutcome where
  | removeDirErr
  | success
deriving DecidableEq

/-- Model of `ExtensionStore::uninstall_extension`: unconditionally inserts the id into
`extensions_being_uninstalled` and spawns the delete task; the task removes the
id and calls `reload` only after `remove_dir` succeeds. -/
def uninstall_extension (extension_id : String) (outcome : UninstallOutcome) (s : OpsState) :
    OpsState × Bool :=
  let s1 := { s with
    extensions_being_uninstalled := insertSet extension_id s.extensions_being_uninstalled }
  match outcome with
  | .removeDirErr => (s1, true)
  | .success =>
    ({ s1 with
       extensions_being_uninstalled := removeSet extension_id s1.extensions_being_uninstalled,
       reloads_triggered := s1.reloads_triggered + 1 },
     true)

/-! ### Reload coordinator -/

/-- The coordinator state: `reload_task.is_some()`, the `needs_reload` flag,
the number of scan/apply cycles currently in flight, and a counter of cycles
ever started (for stating coalescing). -/
structure ReloadState where
  reload_task : Bool
  needs_reload : Bool
  running_cycles : Nat
  cycles_started : Nat
deriving DecidableEq

/-- Model of `ExtensionStore::reload`: if a reload task exists, only set `needs_reload`;
otherwise clear it, store the task and start a cycle. -/
def reload (s : ReloadState) : ReloadState :=
  if s.reload_task then { s with needs_reload := true }
  else
    { s with
      needs_reload := false
      reload_task := true
      running_cycles := s.running_cycles + 1
      cycles_started := s.cycles_started + 1 }

/-- End of a reload cycle: `this.reload_task.take()`, then a recursive `reload`
when `needs_reload` is set. A completion event with no running cycle is a no-op
(it cannot occur). -/
def finishCycle (s : ReloadState) : ReloadState :=
  if s.running_cycles = 0 then s
  else
    let s1 := { s with reload_task := false, running_cycles := s.running_cycles - 1 }
    if s1.needs_reload then reload s1 else s1

/-- Events observable by the coordinator. -/
inductive ReloadEvent where
  | trigger
  | complete
deriving DecidableEq

/-- One coordinator step. -/
def reloadStep (s : ReloadState) : ReloadEvent → ReloadState
  | .trigger => reload s
  | .complete => finishCycle s

/-- A run of the coordinator over an event trace. -/
def runEvents (s : ReloadState) (events : List ReloadEvent) : ReloadState :=
  events.foldl reloadStep s

/-- The coordinator state of a fresh store. -/
def initialReloadState : ReloadState := ⟨false, false, 0, 0⟩

/-! ### Sandbox (wasm) loading tail of `manifest_updated` -/

/-- One extension reaching the wasm-loading loop: its manifest, the result of
`open_sync` + `read_to_end` on the compiled binary (`none` models either
failing), and whether `wasm_host.load_extension` succeeds. -/
structure WasmExtensionInput where
  manifest : ExtensionManifest
  wasmBytes : Option (List Nat)
  loads : Bool
deriving DecidableEq

/-- The wasm-loading loop of `manifest_updated`'s spawned task: extensions
without a `lib` entry are skipped; any failure hits an `.expect(...)`, which
panics the task — modelled as `Except.error` aborting the whole loop. On
success, returns the ids of the loaded extensions in order. -/
def loadWasmExtensions : List WasmExtensionInput → Except String (List String)
  | [] => .ok []
  | x :: xs =>
    match x.manifest.lib with
    | none => loadWasmExtensions xs
    | some _ =>
      match x.wasmBytes with
      | none => .error "failed to open wasm file"
      | some _ =>
        if x.loads then
          match loadWasmExtensions xs with
          | .ok rest => .ok (x.manifest.id :: rest)
          | .error e => .error e
        else .error "failed to load wasm extension"

/-! ### Startup (`ExtensionStore::load`) -/

/-- The slice of `fs::Metadata` the startup path reads. -/
structure FileMetadata where
  mtime : Nat
deriving DecidableEq

/-- Model of `ExtensionStore::load`: given the three awaited results — the snapshot
file's content (outer `none` = failing `fs.load`, inner `none` = failing JSON
parse), and the two `fs.metadata` results (outer `none` = `Err`, inner `none` =
`Ok(None)`, the file not existing) — returns the index applied via
`manifest_updated` (if any) and whether `reload` (the full scan) is called. -/
def load (manifest_content : Option (Option ExtensionIndex))
    (manifest_metadata : Option (Option FileMetadata))
    (extensions_metadata : Option (Option FileMetadata)) :
    Option ExtensionIndex × Bool :=
  let applied :=
    match manifest_content with
    | some (some index) => some index
    | _ => none
  let should_reload :=
    match manifest_metadata, extensions_metadata with
    | some (some mm), some (some em) => decide (em.mtime > mm.mtime)
    | _, _ => true
  (applied, should_reload)

/-! ### Derived definitions and concrete fixtures -/

/-- Whether an entry is "changed" relative to the other map. -/
def changedAgainst {T : Type} [DecidableEq T] (other : List (String × T)) (m : String → Bool)
    (p : String × T) : Bool :=
  match lookupKV p.1 other with
  | none => true
  | some w => decide (p.2 ≠ w) || m p.1

/-- Closed form of the removed-keys output of `diff`. -/
def removedSpec {T : Type} [DecidableEq T] (old nw : List (String × T)) (m : String → Bool) :
    List String :=
  (old.filter (changedAgainst nw m)).map Prod.fst

/-- Closed form of the added-keys output of `diff`. -/
def addedSpec {T : Type} [DecidableEq T] (old nw : List (String × T)) (m : String → Bool) :
    List String :=
  (nw.filter (changedAgainst old m)).map Prod.fst

/-- Coordinator invariant: at most one cycle runs, exactly when a task is stored. -/
def reloadInv (s : ReloadState) : Prop :=
  s.running_cycles ≤ 1 ∧ (s.reload_task = true ↔ s.running_cycles = 1)

/-- A wasm-loop input that cannot hit an `.expect`: either no entry point, or
readable bytes and a successful instantiation. -/
def wasmOk (x : WasmExtensionInput) : Bool :=
  x.manifest.lib.isNone || (x.wasmBytes.isSome && x.loads)

/-- A concrete manifest with an entry point, used by concrete scenarios. -/
def mfLib (i : String) : ExtensionManifest :=
  ⟨i, i, "1.0.0", none, none, [], some ⟨"extension.wasm"⟩, [], [], [], []⟩

/-- Fixture: a language config named "A". -/
def cfgA : LanguageConfig := ⟨"A", none, ⟨[], none⟩⟩

/-- Fixture: a manifest declaring the language path "languages/a". -/
def mfDup : ExtensionManifest :=
  ⟨"e", "e", "1", none, none, [], none, [], ["languages/a"], [], []⟩

/-- Fixture: an extension directory whose one language directory sits at the
already-declared path "languages/a". -/
def inputDup : ExtensionDirInput :=
  ⟨some "e", some mfDup, some [some ⟨"languages/a", true, some cfgA⟩], some []⟩

/-- A language directory entry the source can process without propagating an
error: not an `Err` entry, and either skipped (not a directory) or with a
parsing `config.toml`. -/
def langEntryOk : Option LanguageDirInput → Bool
  | none => false
  | some l => !l.is_dir || l.config.isSome

/-- A theme file entry the source can process without propagating an error:
any non-`Err` entry — a failing theme parse is merely skipped. -/
def themeEntryOk : Option ThemeFileInput → Bool
  | none => false
  | some _ => true

/-- The exact condition under which `add_extension_to_index` returns `Ok`. -/
def dirOk (input : ExtensionDirInput) : Bool :=
  input.dir_name.isSome && input.manifest.isSome &&
  (match input.languageDirs with
   | none => true
   | some ls => ls.all langEntryOk) &&
  (match input.themeFiles with
   | none => true
   | some ts => ts.all themeEntryOk)

/-- Fixture: a plain manifest with no declared sub-entries. -/
def mfPlain : ExtensionManifest := ⟨"e", "e", "1", none, none, [], none, [], [], [], []⟩

/-- Fixture: an extension directory whose first language directory parses and
whose second language directory has an invalid `config.toml`. -/
def inputLangFail : ExtensionDirInput :=
  ⟨some "e", some mfPlain,
   some [some ⟨"languages/good", true, some cfgA⟩, some ⟨"languages/bad", true, none⟩],
   some []⟩

/-- Fixture: an extension directory with one parsing theme file (declaring two
theme names) and one theme file whose parse fails. -/
def inputThemeFail : ExtensionDirInput :=
  ⟨some "e", some mfPlain, some [],
   some [some ⟨"themes/good.json", some ["Good Dark", "Good Light"]⟩,
         some ⟨"themes/bad.json", none⟩]⟩

/-- Fixture: an old index with extension "e" (manifest `mfPlain`) owning the
theme key "T" and no languages. -/
def oldIdxC1 : ExtensionIndex :=
  ⟨[("e", mfPlain)], [("T", ⟨"e", "themes/t.json"⟩)], []⟩

/-- Fixture: a new index with the structurally identical extension "e", the
theme key gone, and a new language key "L" owned by "e". -/
def newIdxC1 : ExtensionIndex :=
  ⟨[("e", mfPlain)], [], [("L", ⟨"e", "languages/l", ⟨[], none⟩, none⟩)]⟩

/-! ### Order lemmas for `keyLt` -/

theorem charsLt_irrefl (l : List Char) : charsLt l l = false := by
  induction l with
  | nil => rfl
  | cons a as ih => simp [charsLt, lt_irrefl, ih]

theorem charsLt_trans {a b c : List Char} (hab : charsLt a b = true)
    (hbc : charsLt b c = true) : charsLt a c = true := by
  induction a generalizing b c with
  | nil =>
    cases b with
    | nil => simp [charsLt] at hab
    | cons y ys =>
      cases c with
      | nil => simp [charsLt] at hbc
      | cons z zs => simp [charsLt]
  | cons x xs ih =>
    cases b with
    | nil => simp [charsLt] at hab
    | cons y ys =>
      cases c with
      | nil => simp [charsLt] at hbc
      | cons z zs =>
        simp only [charsLt] at hab hbc ⊢
        by_cases hxy : x < y
        · by_cases hyz : y < z
          · rw [if_pos (lt_trans hxy hyz)]
          · rw [if_neg hyz] at hbc
            by_cases hzy : z < y
            · rw [if_pos hzy] at hbc
              simp at hbc
            · rw [if_neg hzy] at hbc
              have hyz' : y = z := le_antisymm (not_lt.mp hzy) (not_lt.mp hyz)
              subst hyz'
              rw [if_pos hxy]
        · rw [if_neg hxy] at hab
          by_cases hyx : y < x
          · rw [if_pos hyx] at hab
            simp at hab
          · rw [if_neg hyx] at hab
            have hxy' : x = y := le_antisymm (not_lt.mp hyx) (not_lt.mp hxy)
            subst hxy'
            by_cases hxz : x < z
            · rw [if_pos hxz]
            · rw [if_neg hxz] at hbc ⊢
              by_cases hzx : z < x
              · rw [if_pos hzx] at hbc
                simp at hbc
              · rw [if_neg hzx] at hbc ⊢
                exact ih hab hbc

theorem charsLt_asymm {a b : List Char} (hab : charsLt a b = true) :
    charsLt b a = false := by
  induction a generalizing b with
  | nil =>
    cases b with
    | nil => simp [charsLt] at hab
    | cons y ys => simp [charsLt]
  | cons x xs ih =>
    cases b with
    | nil => simp [charsLt] at hab
    | cons y ys =>
      simp only [charsLt] at hab ⊢
      by_cases hxy : x < y
      · rw [if_neg (asymm hxy), if_pos hxy]
      · rw [if_neg hxy] at hab
        by_cases hyx : y < x
        · rw [if_pos hyx] at hab
          simp at hab
        · rw [if_neg hyx] at hab
          have hxy' : x = y := le_antisymm (not_lt.mp hyx) (not_lt.mp hxy)
          subst hxy'
          rw [if_neg hxy, if_neg hxy]
          exact ih hab

theorem charsLt_eq_of_not {a b : List Char} (hab : charsLt a b = false)
    (hba : charsLt b a = false) : a = b := by
  induction a generalizing b with
  | nil =>
    cases b with
    | nil => rfl
    | cons y ys => simp [charsLt] at hab
  | cons x xs ih =>
    cases b with
    | nil => simp [charsLt] at hba
    | cons y ys =>
      simp only [charsLt] at hab hba
      by_cases hxy : x < y
      · rw [if_pos hxy] at hab
        simp at hab
      · by_cases hyx : y < x
        · rw [if_pos hyx] at hba
          simp at hba
        · rw [if_neg hxy, if_neg hyx] at hab
          have hxy' : x = y := le_antisymm (not_lt.mp hyx) (not_lt.mp hxy)
          subst hxy'
          rw [if_neg hxy, if_neg hxy] at hba
          exact congrArg (x :: ·) (ih hab hba)

theorem keyLt_irrefl (a : String) : keyLt a a = false := charsLt_irrefl a.data

theorem keyLt_trans {a b c : String} (hab : keyLt a b = true) (hbc : keyLt b c = true) :
    keyLt a c = true := charsLt_trans hab hbc

theorem keyLt_asymm {a b : String} (hab : keyLt a b = true) : keyLt b a = false :=
  charsLt_asymm hab

theorem keyLt_eq_of_not {a b : String} (hab : keyLt a b = false) (hba : keyLt b a = false) :
    a = b := by
  have h := charsLt_eq_of_not hab hba
  cases a; cases b; simp_all

theorem keyLt_ne {a b : String} (hab : keyLt a b = true) : a ≠ b := by
  intro h
  subst h
  simp [keyLt_irrefl] at hab

theorem keyLt_of_ne {a b : String} (h : a ≠ b) :
    keyLt a b = true ∨ keyLt b a = true := by
  by_cases hab : keyLt a b = true
  · exact Or.inl hab
  · by_cases hba : keyLt b a = true
    · exact Or.inr hba
    · exact absurd (keyLt_eq_of_not (Bool.eq_false_iff.mpr hab) (Bool.eq_false_iff.mpr hba)) h

/-! ### Sortedness and lookup lemmas -/

theorem sortedKeys_cons {T : Type} {x : String × T} {l : List (String × T)}
    (h : sortedKeys (x :: l) = true) :
    sortedKeys l = true ∧ ∀ p ∈ l, keyLt x.1 p.1 = true := by
  induction l generalizing x with
  | nil => simp [sortedKeys]
  | cons y ys ih =>
    simp only [sortedKeys, Bool.and_eq_true] at h
    obtain ⟨hxy, hrest⟩ := h
    obtain ⟨hsorted, hall⟩ := ih hrest
    refine ⟨hrest, ?_⟩
    intro p hp
    rcases List.mem_cons.mp hp with rfl | hp'
    · exact hxy
    · exact keyLt_trans hxy (hall p hp')

theorem lookupKV_eq_none_of_all_gt {T : Type} {k : String} {l : List (String × T)}
    (h : ∀ p ∈ l, keyLt k p.1 = true) : lookupKV k l = none := by
  induction l with
  | nil => rfl
  | cons x xs ih =>
    have hx : keyLt k x.1 = true := h x (List.mem_cons_self x xs)
    have hne : k ≠ x.1 := keyLt_ne hx
    obtain ⟨k', v⟩ := x
    simp only [lookupKV, if_neg hne]
    exact ih (fun p hp => h p (List.mem_cons_of_mem _ hp))

theorem lookupKV_head_eq_none {T : Type} {x : String × T} {l : List (String × T)}
    (h : sortedKeys (x :: l) = true) : lookupKV x.1 l = none :=
  lookupKV_eq_none_of_all_gt (sortedKeys_cons h).2

theorem lookupKV_cons_ne {T : Type} {k : String} {x : String × T} {l : List (String × T)}
    (h : k ≠ x.1) : lookupKV k (x :: l) = lookupKV k l := by
  obtain ⟨k', v⟩ := x
  simp only [lookupKV, if_neg h]

theorem lookupKV_cons_self {T : Type} {x : String × T} {l : List (String × T)} :
    lookupKV x.1 (x :: l) = some x.2 := by
  obtain ⟨k', v⟩ := x
  simp [lookupKV]

theorem sortedList_cons_of {a : String} {l : List String}
    (hl : sortedList l = true) (hall : ∀ b ∈ l, keyLt a b = true) :
    sortedList (a :: l) = true := by
  cases l with
  | nil => rfl
  | cons b bs =>
    simp only [sortedList, Bool.and_eq_true]
    exact ⟨hall b (List.mem_cons_self b bs), hl⟩

theorem lookupKV_mem {T : Type} {k : String} {v : T} {l : List (String × T)}
    (h : lookupKV k l = some v) : (k, v) ∈ l := by
  induction l with
  | nil => simp [lookupKV] at h
  | cons x xs ih =>
    obtain ⟨k', v'⟩ := x
    simp only [lookupKV] at h
    by_cases hk : k = k'
    · rw [if_pos hk] at h
      subst hk
      injection h with h
      subst h
      exact List.mem_cons_self _ _
    · rw [if_neg hk] at h
      exact List.mem_cons_of_mem _ (ih h)

theorem lookupKV_isSome_of_mem {T : Type} {k : String} {v : T} {l : List (String × T)}
    (h : (k, v) ∈ l) : (lookupKV k l).isSome = true := by
  induction l with
  | nil => simp at h
  | cons x xs ih =>
    obtain ⟨k', v'⟩ := x
    rcases List.mem_cons.mp h with heq | hmem
    · injection heq with h1 h2
      subst h1
      simp [lookupKV]
    · simp only [lookupKV]
      by_cases hk : k = k'
      · rw [if_pos hk]
        rfl
      · rw [if_neg hk]
        exact ih hmem

theorem lookupKV_of_mem_sorted {T : Type} {k : String} {v : T} {l : List (String × T)}
    (hs : sortedKeys l = true) (h : (k, v) ∈ l) : lookupKV k l = some v := by
  induction l with
  | nil => simp at h
  | cons x xs ih =>
    obtain ⟨hs', hall⟩ := sortedKeys_cons hs
    rcases List.mem_cons.mp h with heq | hmem
    · subst heq
      exact @lookupKV_cons_self _ (k, v) xs
    · have hne : k ≠ x.1 := by
        intro hk
        subst hk
        have := hall _ hmem
        exact absurd this (by simp [keyLt_irrefl])
      rw [lookupKV_cons_ne hne]
      exact ih hs' hmem

theorem sortedList_map_filter {T : Type} (f : String × T → Bool) {l : List (String × T)}
    (h : sortedKeys l = true) : sortedList ((l.filter f).map Prod.fst) = true := by
  induction l with
  | nil => rfl
  | cons x xs ih =>
    obtain ⟨hs, hall⟩ := sortedKeys_cons h
    by_cases hf : f x = true
    · rw [List.filter_cons_of_pos hf, List.map_cons]
      refine sortedList_cons_of (ih hs) ?_
      intro b hb
      obtain ⟨p, hp, hpb⟩ := List.mem_map.mp hb
      subst hpb
      exact hall p (List.mem_filter.mp hp).1
    · rw [List.filter_cons_of_neg (by simpa using hf)]
      exact ih hs

/-! ### Unfolding equations of `diff` -/

theorem diff_nil_nil {T : Type} [DecidableEq T] (m : String → Bool) :
    diff ([] : List (String × T)) [] m = ([], []) := by
  rw [diff]

theorem diff_nil_cons {T : Type} [DecidableEq T] (n : String × T) (nw : List (String × T))
    (m : String → Bool) :
    diff [] (n :: nw) m = ((diff [] nw m).1, n.1 :: (diff [] nw m).2) := by
  rw [diff]

theorem diff_cons_nil {T : Type} [DecidableEq T] (o : String × T) (od : List (String × T))
    (m : String → Bool) :
    diff (o :: od) [] m = (o.1 :: (diff od [] m).1, (diff od [] m).2) := by
  rw [diff]

theorem diff_eq_changed {T : Type} [DecidableEq T] {o : String × T} {od : List (String × T)}
    {n : String × T} {nw : List (String × T)} {m : String → Bool}
    (heq : o.1 = n.1) (hch : o.2 ≠ n.2 ∨ m o.1 = true) :
    diff (o :: od) (n :: nw) m = (o.1 :: (diff od nw m).1, n.1 :: (diff od nw m).2) := by
  rw [diff]
  simp only [if_pos heq, if_pos hch]

theorem diff_eq_unchanged {T : Type} [DecidableEq T] {o : String × T} {od : List (String × T)}
    {n : String × T} {nw : List (String × T)} {m : String → Bool}
    (heq : o.1 = n.1) (hch : ¬(o.2 ≠ n.2 ∨ m o.1 = true)) :
    diff (o :: od) (n :: nw) m = diff od nw m := by
  rw [diff]
  simp only [if_pos heq, if_neg hch]

theorem diff_lt {T : Type} [DecidableEq T] {o : String × T} {od : List (String × T)}
    {n : String × T} {nw : List (String × T)} {m : String → Bool}
    (hne : ¬ o.1 = n.1) (hlt : keyLt o.1 n.1 = true) :
    diff (o :: od) (n :: nw) m =
      (o.1 :: (diff od (n :: nw) m).1, (diff od (n :: nw) m).2) := by
  rw [diff]
  simp only [if_neg hne, hlt, if_pos]

theorem diff_gt {T : Type} [DecidableEq T] {o : String × T} {od : List (String × T)}
    {n : String × T} {nw : List (String × T)} {m : String → Bool}
    (hne : ¬ o.1 = n.1) (hlt : keyLt o.1 n.1 = false) :
    diff (o :: od) (n :: nw) m =
      ((diff (o :: od) nw m).1, n.1 :: (diff (o :: od) nw m).2) := by
  rw [diff]
  simp only [if_neg hne, hlt]
  simp only [Bool.false_eq_true, if_false]

/-! ### A closed-form description of `diff`

On key-sorted inputs, the merge-walk is a filter: an entry is emitted when its
key is absent from the other map, or present with a different value, or in the
modified set. -/

theorem changedAgainst_cons_ne {T : Type} [DecidableEq T] {h : String × T}
    {other : List (String × T)} {m : String → Bool} {p : String × T} (hne : p.1 ≠ h.1) :
    changedAgainst (h :: other) m p = changedAgainst other m p := by
  simp only [changedAgainst, lookupKV_cons_ne hne]

theorem filter_changedAgainst_cons {T : Type} [DecidableEq T] {h : String × T}
    {other l : List (String × T)} {m : String → Bool}
    (hne : ∀ p ∈ l, p.1 ≠ h.1) :
    l.filter (changedAgainst (h :: other) m) = l.filter (changedAgainst other m) := by
  apply List.filter_congr
  intro p hp
  exact changedAgainst_cons_ne (hne p hp)

theorem diff_eq_spec {T : Type} [DecidableEq T] (old nw : List (String × T)) (m : String → Bool) :
    sortedKeys old = true → sortedKeys nw = true →
      diff old nw m = (removedSpec old nw m, addedSpec old nw m) := by
  induction old, nw, m using diff.induct with
  | case1 m =>
    intro _ _
    rw [diff_nil_nil]
    rfl
  | case2 n nw m ih =>
    intro _ hn
    obtain ⟨hn', _⟩ := sortedKeys_cons hn
    rw [diff_nil_cons, ih rfl hn']
    simp [removedSpec, addedSpec, changedAgainst, lookupKV]
  | case3 o od m ih =>
    intro ho _
    obtain ⟨ho', _⟩ := sortedKeys_cons ho
    rw [diff_cons_nil, ih ho' rfl]
    simp [removedSpec, addedSpec, changedAgainst, lookupKV]
  | case4 o od n nw m heq hch ih =>
    intro ho hn
    obtain ⟨ho', hallo⟩ := sortedKeys_cons ho
    obtain ⟨hn', halln⟩ := sortedKeys_cons hn
    rw [diff_eq_changed heq hch, ih ho' hn']
    have hodne : ∀ p ∈ od, p.1 ≠ n.1 := by
      intro p hp hc
      have h1 := hallo p hp
      rw [heq, hc] at h1
      simp [keyLt_irrefl] at h1
    have hnwne : ∀ p ∈ nw, p.1 ≠ o.1 := by
      intro p hp hc
      have h1 := halln p hp
      rw [← heq, hc] at h1
      simp [keyLt_irrefl] at h1
    have hlookn : lookupKV o.1 (n :: nw) = some n.2 := by
      rw [heq]
      exact @lookupKV_cons_self _ n nw
    have hlooko : lookupKV n.1 (o :: od) = some o.2 := by
      rw [← heq]
      exact @lookupKV_cons_self _ o od
    have hcondo : changedAgainst (n :: nw) m o = true := by
      simp only [changedAgainst, hlookn]
      rcases hch with h | h
      · simp [h]
      · simp [h]
    have hcondn : changedAgainst (o :: od) m n = true := by
      simp only [changedAgainst, hlooko]
      rcases hch with h | h
      · simp [Ne.symm h]
      · rw [heq] at h
        simp [h]
    simp only [removedSpec, addedSpec, List.filter_cons_of_pos hcondo,
      List.filter_cons_of_pos hcondn, List.map_cons]
    rw [filter_changedAgainst_cons hodne, filter_changedAgainst_cons hnwne]
  | case5 o od n nw m heq hch ih =>
    intro ho hn
    obtain ⟨ho', hallo⟩ := sortedKeys_cons ho
    obtain ⟨hn', halln⟩ := sortedKeys_cons hn
    rw [diff_eq_unchanged heq hch, ih ho' hn']
    push_neg at hch
    obtain ⟨hvals, hmod⟩ := hch
    have hmod' : m o.1 = false := Bool.not_eq_true _ ▸ Bool.eq_false_iff.mpr hmod
    have hodne : ∀ p ∈ od, p.1 ≠ n.1 := by
      intro p hp hc
      have h1 := hallo p hp
      rw [heq, hc] at h1
      simp [keyLt_irrefl] at h1
    have hnwne : ∀ p ∈ nw, p.1 ≠ o.1 := by
      intro p hp hc
      have h1 := halln p hp
      rw [← heq, hc] at h1
      simp [keyLt_irrefl] at h1
    have hlookn : lookupKV o.1 (n :: nw) = some n.2 := by
      rw [heq]
      exact @lookupKV_cons_self _ n nw
    have hlooko : lookupKV n.1 (o :: od) = some o.2 := by
      rw [← heq]
      exact @lookupKV_cons_self _ o od
    have hcondo : changedAgainst (n :: nw) m o = false := by
      simp [changedAgainst, hlookn, hvals, hmod']
    have hcondn : changedAgainst (o :: od) m n = false := by
      have hmn : m n.1 = false := heq ▸ hmod'
      simp [changedAgainst, hlooko, hvals, hmn]
    simp only [removedSpec, addedSpec,
      List.filter_cons_of_neg (by simp only [hcondo, Bool.false_eq_true, not_false_eq_true] :
        ¬ changedAgainst (n :: nw) m o = true),
      List.filter_cons_of_neg (by simp only [hcondn, Bool.false_eq_true, not_false_eq_true] :
        ¬ changedAgainst (o :: od) m n = true)]
    rw [filter_changedAgainst_cons hodne, filter_changedAgainst_cons hnwne]
  | case6 o od n nw m hne hlt ih =>
    intro ho hn
    obtain ⟨ho', hallo⟩ := sortedKeys_cons ho
    obtain ⟨hn', halln⟩ := sortedKeys_cons hn
    rw [diff_lt hne hlt, ih ho' hn]
    have hgtall : ∀ p ∈ (n :: nw), keyLt o.1 p.1 = true := by
      intro p hp
      rcases List.mem_cons.mp hp with rfl | hp'
      · exact hlt
      · exact keyLt_trans hlt (halln p hp')
    have hlook : lookupKV o.1 (n :: nw) = none :=
      lookupKV_eq_none_of_all_gt hgtall
    have hcondo : changedAgainst (n :: nw) m o = true := by
      simp [changedAgainst, hlook]
    have hnwne : ∀ p ∈ (n :: nw), p.1 ≠ o.1 := by
      intro p hp hc
      have h1 := hgtall p hp
      rw [hc] at h1
      simp [keyLt_irrefl] at h1
    simp only [removedSpec, addedSpec, List.filter_cons_of_pos hcondo, List.map_cons]
    rw [filter_changedAgainst_cons hnwne]
  | case7 o od n nw m hne hnlt ih =>
    intro ho hn
    obtain ⟨ho', hallo⟩ := sortedKeys_cons ho
    obtain ⟨hn', halln⟩ := sortedKeys_cons hn
    have hnlt' : keyLt o.1 n.1 = false := Bool.eq_false_iff.mpr hnlt
    have hgt : keyLt n.1 o.1 = true := by
      rcases keyLt_of_ne (fun h => hne h.symm) with h | h
      · exact h
      · rw [h] at hnlt'
        simp at hnlt'
    rw [diff_gt hne hnlt', ih ho hn']
    have hgtall : ∀ p ∈ (o :: od), keyLt n.1 p.1 = true := by
      intro p hp
      rcases List.mem_cons.mp hp with rfl | hp'
      · exact hgt
      · exact keyLt_trans hgt (hallo p hp')
    have hlook : lookupKV n.1 (o :: od) = none :=
      lookupKV_eq_none_of_all_gt hgtall
    have hcondn : changedAgainst (o :: od) m n = true := by
      simp [changedAgainst, hlook]
    have hodne : ∀ p ∈ (o :: od), p.1 ≠ n.1 := by
      intro p hp hc
      have h1 := hgtall p hp
      rw [hc] at h1
      simp [keyLt_irrefl] at h1
    simp only [removedSpec, addedSpec, List.filter_cons_of_pos hcondn, List.map_cons]
    rw [filter_changedAgainst_cons hodne]

theorem mem_removedSpec_of {T : Type} [DecidableEq T] {old nw : List (String × T)}
    {m : String → Bool} {k : String} {v : T}
    (hv : lookupKV k old = some v) (hc : changedAgainst nw m (k, v) = true) :
    k ∈ removedSpec old nw m :=
  List.mem_map.mpr ⟨(k, v), List.mem_filter.mpr ⟨lookupKV_mem hv, hc⟩, rfl⟩

theorem mem_addedSpec_of {T : Type} [DecidableEq T] {old nw : List (String × T)}
    {m : String → Bool} {k : String} {w : T}
    (hw : lookupKV k nw = some w) (hc : changedAgainst old m (k, w) = true) :
    k ∈ addedSpec old nw m :=
  List.mem_map.mpr ⟨(k, w), List.mem_filter.mpr ⟨lookupKV_mem hw, hc⟩, rfl⟩

theorem not_mem_removedSpec_absent {T : Type} [DecidableEq T] {old nw : List (String × T)}
    {m : String → Bool} {k : String} (h : lookupKV k old = none) :
    k ∉ removedSpec old nw m := by
  intro hk
  obtain ⟨p, hp, hp1⟩ := List.mem_map.mp hk
  have hmem : (p.1, p.2) ∈ old := (List.mem_filter.mp hp).1
  have := lookupKV_isSome_of_mem hmem
  rw [hp1, h] at this
  simp at this

theorem not_mem_addedSpec_absent {T : Type} [DecidableEq T] {old nw : List (String × T)}
    {m : String → Bool} {k : String} (h : lookupKV k nw = none) :
    k ∉ addedSpec old nw m := by
  intro hk
  obtain ⟨p, hp, hp1⟩ := List.mem_map.mp hk
  have hmem : (p.1, p.2) ∈ nw := (List.mem_filter.mp hp).1
  have := lookupKV_isSome_of_mem hmem
  rw [hp1, h] at this
  simp at this

theorem not_mem_removedSpec_unchanged {T : Type} [DecidableEq T] {old nw : List (String × T)}
    {m : String → Bool} {k : String} {v : T} (hs : sortedKeys old = true)
    (hv : lookupKV k old = some v) (hw : lookupKV k nw = some v) (hm : m k = false) :
    k ∉ removedSpec old nw m := by
  intro hk
  obtain ⟨p, hp, hp1⟩ := List.mem_map.mp hk
  obtain ⟨hmem, hcond⟩ := List.mem_filter.mp hp
  have hmem' : (k, p.2) ∈ old := by
    rw [← hp1]
    simpa using hmem
  have hlv : p.2 = v := by
    have := lookupKV_of_mem_sorted hs hmem'
    rw [hv] at this
    exact (Option.some.inj this).symm
  rw [show p = (k, v) from by rw [← hp1, ← hlv]] at hcond
  simp [changedAgainst, hw, hm] at hcond

theorem not_mem_addedSpec_unchanged {T : Type} [DecidableEq T] {old nw : List (String × T)}
    {m : String → Bool} {k : String} {v : T} (hs : sortedKeys nw = true)
    (hv : lookupKV k old = some v) (hw : lookupKV k nw = some v) (hm : m k = false) :
    k ∉ addedSpec old nw m := by
  intro hk
  obtain ⟨p, hp, hp1⟩ := List.mem_map.mp hk
  obtain ⟨hmem, hcond⟩ := List.mem_filter.mp hp
  have hmem' : (k, p.2) ∈ nw := by
    rw [← hp1]
    simpa using hmem
  have hlv : p.2 = v := by
    have := lookupKV_of_mem_sorted hs hmem'
    rw [hw] at this
    exact (Option.some.inj this).symm
  rw [show p = (k, v) from by rw [← hp1, ← hlv]] at hcond
  simp [changedAgainst, hv, hm] at hcond

theorem diff_self_empty {T : Type} [DecidableEq T] (x : List (String × T)) :
    diff x x (fun _ => false) = ([], []) := by
  induction x with
  | nil => rw [diff_nil_nil]
  | cons a xs ih =>
    rw [diff_eq_unchanged rfl (by simp), ih]

/-! ### Reload coordinator lemmas -/

theorem reloadInv_initial : reloadInv initialReloadState := by
  simp [reloadInv, initialReloadState]

theorem reloadInv_reload {s : ReloadState} (h : reloadInv s) : reloadInv (reload s) := by
  obtain ⟨h1, h2⟩ := h
  by_cases ht : s.reload_task = true
  · simp only [reload, if_pos ht]
    exact ⟨h1, h2⟩
  · have hr : s.running_cycles = 0 := by
      rcases Nat.lt_or_ge s.running_cycles 1 with h | h
      · omega
      · exact absurd (h2.mpr (by omega)) ht
    simp only [reload, if_neg ht]
    simp [reloadInv, hr]

theorem reloadInv_finishCycle {s : ReloadState} (h : reloadInv s) :
    reloadInv (finishCycle s) := by
  obtain ⟨h1, h2⟩ := h
  by_cases hr : s.running_cycles = 0
  · simp only [finishCycle, if_pos hr]
    exact ⟨h1, h2⟩
  · simp only [finishCycle, if_neg hr]
    have hr1 : s.running_cycles = 1 := by omega
    by_cases hn : s.needs_reload = true
    · simp only [hn, if_pos]
      apply reloadInv_reload
      simp [reloadInv, hr1]
    · simp only [hn]
      simp [reloadInv, hr1]

theorem reloadInv_runEvents {s : ReloadState} (h : reloadInv s) (events : List ReloadEvent) :
    reloadInv (runEvents s events) := by
  induction events generalizing s with
  | nil => exact h
  | cons e es ih =>
    cases e with
    | trigger => exact ih (reloadInv_reload h)
    | complete => exact ih (reloadInv_finishCycle h)

/-! ## Claims -/

/-- C4: the diff merge-walk over two key-sorted maps and a modified set sends a
key only in `old` to removed (and not added), a key only in `new` to added (and
not removed), a key in both with unequal values or in the modified set to both
lists, and a key in both with equal values outside the modified set to neither;
both outputs are in ascending key order; the two concrete examples from the
spec hold; and `diff x x {}` is empty for every map `x`. -/
theorem diff_merge_walk_correct :
    (∀ (T : Type) [DecidableEq T] (old nw : List (String × T)) (m : String → Bool) (k : String),
      sortedKeys old = true → sortedKeys nw = true →
        ((∀ v : T, lookupKV k old = some v → lookupKV k nw = none →
            k ∈ (diff old nw m).1 ∧ k ∉ (diff old nw m).2) ∧
         (∀ w : T, lookupKV k old = none → lookupKV k nw = some w →
            k ∉ (diff old nw m).1 ∧ k ∈ (diff old nw m).2) ∧
         (∀ v w : T, lookupKV k old = some v → lookupKV k nw = some w →
            (v ≠ w ∨ m k = true) →
            k ∈ (diff old nw m).1 ∧ k ∈ (diff old nw m).2) ∧
         (∀ v : T, lookupKV k old = some v → lookupKV k nw = some v → m k = false →
            k ∉ (diff old nw m).1 ∧ k ∉ (diff old nw m).2) ∧
         sortedList (diff old nw m).1 = true ∧ sortedList (diff old nw m).2 = true)) ∧
    diff [("a", (1 : Nat)), ("b", 2)] [("b", 2), ("c", 3)] (fun _ => false) = (["a"], ["c"]) ∧
    diff [("a", (1 : Nat))] [("a", 1)] (fun s => s = "a") = (["a"], ["a"]) ∧
    (∀ (T : Type) [DecidableEq T] (x : List (String × T)), diff x x (fun _ => false) = ([], [])) := by
  refine ⟨?_, ?_, ?_, fun T _ x => diff_self_empty x⟩
  · intro T _ old nw m k ho hn
    rw [diff_eq_spec old nw m ho hn]
    refine ⟨?_, ?_, ?_, ?_, ?_, ?_⟩
    · intro v hv hw
      refine ⟨mem_removedSpec_of hv ?_, not_mem_addedSpec_absent hw⟩
      simp [changedAgainst, hw]
    · intro w hv hw
      refine ⟨not_mem_removedSpec_absent hv, mem_addedSpec_of hw ?_⟩
      simp [changedAgainst, hv]
    · intro v w hv hw hc
      refine ⟨mem_removedSpec_of hv ?_, mem_addedSpec_of hw ?_⟩
      · rcases hc with h | h
        · simp [changedAgainst, hw, h]
        · simp [changedAgainst, hw, h]
      · rcases hc with h | h
        · simp [changedAgainst, hv, Ne.symm h]
        · simp [changedAgainst, hv, h]
    · intro v hv hw hm
      exact ⟨not_mem_removedSpec_unchanged ho hv hw hm,
        not_mem_addedSpec_unchanged hn hv hw hm⟩
    · exact sortedList_map_filter _ ho
    · exact sortedList_map_filter _ hn
  · simp [diff, keyLt, charsLt]
  · simp [diff]

/-- Witness for C4 at a concrete input. -/
theorem diff_merge_walk_correct_witness :
    "a" ∈ (diff [("a", (1 : Nat)), ("b", 2)] [("b", 2), ("c", 3)] (fun _ => false)).1 ∧
    "a" ∉ (diff [("a", (1 : Nat)), ("b", 2)] [("b", 2), ("c", 3)] (fun _ => false)).2 :=
  (diff_merge_walk_correct.1 Nat [("a", 1), ("b", 2)] [("b", 2), ("c", 3)]
      (fun _ => false) "a" (by decide) (by decide)).1 1 (by decide) (by decide)

/-- C5: the reload coordinator is single-flight: `reload` during an in-progress
cycle only sets `needs_reload` (no new cycle starts); `reload` when idle starts
a cycle and clears `needs_reload`; a cycle completing with `needs_reload` set
immediately starts a new cycle; and along every event trace from the initial
state at most one cycle is in flight. -/
theorem reload_coordinator_single_flight :
    (∀ s : ReloadState, s.reload_task = true →
        reload s = { s with needs_reload := true } ∧
        (reload s).cycles_started = s.cycles_started ∧
        (reload s).running_cycles = s.running_cycles) ∧
    (∀ s : ReloadState, s.reload_task = false →
        (reload s).needs_reload = false ∧
        (reload s).reload_task = true ∧
        (reload s).cycles_started = s.cycles_started + 1) ∧
    (∀ s : ReloadState, s.running_cycles = 1 → s.reload_task = true →
        s.needs_reload = true →
        (finishCycle s).cycles_started = s.cycles_started + 1 ∧
        (finishCycle s).running_cycles = 1 ∧
        (finishCycle s).needs_reload = false) ∧
    (∀ events : List ReloadEvent,
        (runEvents initialReloadState events).running_cycles ≤ 1) := by
  refine ⟨?_, ?_, ?_, ?_⟩
  · intro s ht
    simp [reload, ht]
  · intro s ht
    simp [reload, ht]
  · intro s hr ht hn
    simp [finishCycle, hr, hn, reload]
  · intro events
    exact (reloadInv_runEvents reloadInv_initial events).1

/-- Witness for C5 at concrete states. -/
theorem reload_coordinator_single_flight_witness :
    (reload ⟨true, false, 1, 5⟩).cycles_started = 5 ∧
    (reload ⟨false, false, 0, 5⟩).cycles_started = 6 ∧
    (finishCycle ⟨true, true, 1, 5⟩).cycles_started = 6 :=
  ⟨(reload_coordinator_single_flight.1 ⟨true, false, 1, 5⟩ rfl).2.1,
   (reload_coordinator_single_flight.2.1 ⟨false, false, 0, 5⟩ rfl).2.2,
   (reload_coordinator_single_flight.2.2.1 ⟨true, true, 1, 5⟩ rfl rfl rfl).1⟩

/-! ### Set helper lemmas for the install/uninstall manager -/

theorem mem_insertSet (extension_id : String) (l : List String) :
    extension_id ∈ insertSet extension_id l := by
  by_cases h : extension_id ∈ l
  · simp [insertSet, h]
  · simp [insertSet, h]

theorem not_mem_removeSet (extension_id : String) (l : List String) :
    extension_id ∉ removeSet extension_id l := by
  simp [removeSet, List.mem_filter]

theorem removeSet_insertSet (extension_id : String) (l : List String) :
    removeSet extension_id (insertSet extension_id l) = removeSet extension_id l := by
  by_cases h : extension_id ∈ l
  · simp [insertSet, h]
  · simp [insertSet, h, removeSet, List.filter_cons]

/-- C3 counterexample: with "x" already being installed and "y" already being
uninstalled, a second `install_extension` call for "x" (or "y"), and an
`uninstall_extension` call for "x", all start their operation anyway — the
source performs no pending-operation check, so nothing is rejected. -/
theorem install_no_mutual_exclusion_cex :
    ("x" ∈ (⟨["x"], ["y"], 0⟩ : OpsState).extensions_being_installed ∧
     "y" ∈ (⟨["x"], ["y"], 0⟩ : OpsState).extensions_being_uninstalled) ∧
    (install_extension "x" .success ⟨["x"], ["y"], 0⟩).2 = true ∧
    (install_extension "y" .success ⟨["x"], ["y"], 0⟩).2 = true ∧
    (uninstall_extension "x" .success ⟨["x"], ["y"], 0⟩).2 = true := by
  decide

/-- C3 amended: `install_extension` and `uninstall_extension` perform no
pending-operation check: for every id and every prior state — including states
where the id is already being installed or uninstalled — the call starts its
operation, first inserting the id into its in-flight set (still visible in the
final state whenever the spawned task fails before its removal point). -/
theorem install_uninstall_never_reject :
    ∀ (extension_id : String) (s : OpsState) (io : InstallOutcome) (uo : UninstallOutcome),
      ((install_extension extension_id io s).2 = true ∧
       (uninstall_extension extension_id uo s).2 = true) ∧
      (io ≠ InstallOutcome.success →
        (install_extension extension_id io s).1.extensions_being_installed
          = insertSet extension_id s.extensions_being_installed) ∧
      (io = InstallOutcome.success →
        (install_extension extension_id io s).1.extensions_being_installed
          = removeSet extension_id s.extensions_being_installed) := by
  intro extension_id s io uo
  refine ⟨⟨?_, ?_⟩, ?_, ?_⟩
  · cases io <;> rfl
  · cases uo <;> rfl
  · intro h
    cases io with
    | downloadErr => rfl
    | unpackErr => rfl
    | success => exact absurd rfl h
  · intro h
    subst h
    simp only [install_extension]
    rw [removeSet_insertSet]

/-- Witness for C3's amended theorem at a concrete input. -/
theorem install_uninstall_never_reject_witness :
    (install_extension "x" .downloadErr ⟨["x"], [], 0⟩).1.extensions_being_installed
      = insertSet "x" ["x"] ∧
    (install_extension "x" .success ⟨["x"], [], 0⟩).1.extensions_being_installed
      = removeSet "x" ["x"] :=
  ⟨(install_uninstall_never_reject "x" ⟨["x"], [], 0⟩ .downloadErr .success).2.1
      (by simp),
   (install_uninstall_never_reject "x" ⟨["x"], [], 0⟩ .success .success).2.2 rfl⟩

/-- C8 counterexample: an install whose download fails leaves the id in
`extensions_being_installed` permanently (the `?` operator returns from the
spawned task before the removal point) and triggers no reload. -/
theorem install_leaks_on_failure_cex :
    "x" ∈ (install_extension "x" .downloadErr ⟨[], [], 0⟩).1.extensions_being_installed ∧
    "x" ∈ (install_extension "x" .unpackErr ⟨[], [], 0⟩).1.extensions_being_installed ∧
    (install_extension "x" .downloadErr ⟨[], [], 0⟩).1.reloads_triggered = 0 ∧
    (install_extension "x" .unpackErr ⟨[], [], 0⟩).1.reloads_triggered = 0 := by
  decide

/-- C8 amended: the id is removed from "being installed" and a reload is
triggered only when the download and the archive extraction both succeed; on a
download or extraction failure the early return skips both, so the id stays in
the set and no reload runs. -/
theorem install_removes_id_only_on_success :
    ∀ (extension_id : String) (s : OpsState),
      (extension_id ∉
          (install_extension extension_id .success s).1.extensions_being_installed ∧
       (install_extension extension_id .success s).1.reloads_triggered
          = s.reloads_triggered + 1) ∧
      (∀ io : InstallOutcome, io ≠ InstallOutcome.success →
        extension_id ∈ (install_extension extension_id io s).1.extensions_being_installed ∧
        (install_extension extension_id io s).1.reloads_triggered = s.reloads_triggered) := by
  intro extension_id s
  constructor
  · exact ⟨not_mem_removeSet _ _, rfl⟩
  · intro io h
    cases io with
    | downloadErr => exact ⟨mem_insertSet _ _, rfl⟩
    | unpackErr => exact ⟨mem_insertSet _ _, rfl⟩
    | success => exact absurd rfl h

/-- Witness for C8's amended theorem at a concrete input. -/
theorem install_removes_id_only_on_success_witness :
    "x" ∈ (install_extension "x" .downloadErr ⟨[], [], 0⟩).1.extensions_being_installed ∧
    (install_extension "x" .downloadErr ⟨[], [], 0⟩).1.reloads_triggered = 0 :=
  (install_removes_id_only_on_success "x" ⟨[], [], 0⟩).2 .downloadErr (by simp)

/-! ### Wasm-loading lemmas -/

theorem loadWasmExtensions_ok_of_all {xs : List WasmExtensionInput}
    (h : ∀ y ∈ xs, wasmOk y = true) :
    loadWasmExtensions xs =
      .ok ((xs.filter (fun y => y.manifest.lib.isSome)).map (fun y => y.manifest.id)) := by
  induction xs with
  | nil => rfl
  | cons x xs ih =>
    have hx := h x (List.mem_cons_self x xs)
    have hrest := ih (fun y hy => h y (List.mem_cons_of_mem _ hy))
    simp only [wasmOk, Bool.or_eq_true, Bool.and_eq_true] at hx
    rcases hx with hlib | ⟨hbytes, hloads⟩
    · have hlib' : x.manifest.lib = none := Option.isNone_iff_eq_none.mp hlib
      simp only [loadWasmExtensions, hlib', List.filter_cons]
      simp [hlib', hrest]
    · obtain ⟨b, hb⟩ := Option.isSome_iff_exists.mp hbytes
      cases hlibv : x.manifest.lib with
      | none =>
        simp only [loadWasmExtensions, hlibv, List.filter_cons]
        simp [hlibv, hrest]
      | some entry =>
        simp only [loadWasmExtensions, hlibv, hb, hloads, if_pos, hrest, List.filter_cons]
        simp [hlibv]

theorem loadWasmExtensions_error_at {pre : List WasmExtensionInput}
    {x : WasmExtensionInput} (post : List WasmExtensionInput)
    (hpre : ∀ y ∈ pre, wasmOk y = true)
    (hlib : x.manifest.lib.isSome = true)
    (hfail : x.wasmBytes = none ∨ x.loads = false) :
    ∃ e, loadWasmExtensions (pre ++ x :: post) = .error e := by
  induction pre with
  | nil =>
    obtain ⟨entry, hentry⟩ := Option.isSome_iff_exists.mp hlib
    cases hbv : x.wasmBytes with
    | none =>
      exact ⟨"failed to open wasm file", by simp [loadWasmExtensions, hentry, hbv]⟩
    | some b =>
      rcases hfail with hb | hl
      · rw [hbv] at hb
        exact absurd hb (by simp)
      · exact ⟨"failed to load wasm extension",
          by simp [loadWasmExtensions, hentry, hbv, hl]⟩
  | cons y pre ih =>
    have hy := hpre y (List.mem_cons_self y pre)
    obtain ⟨e, he⟩ := ih (fun z hz => hpre z (List.mem_cons_of_mem _ hz))
    simp only [wasmOk, Bool.or_eq_true, Bool.and_eq_true] at hy
    rcases hy with hl | ⟨hbytes, hloads⟩
    · have hl' : y.manifest.lib = none := Option.isNone_iff_eq_none.mp hl
      exact ⟨e, by simp [loadWasmExtensions, hl', he]⟩
    · obtain ⟨b, hb⟩ := Option.isSome_iff_exists.mp hbytes
      cases hlibv : y.manifest.lib with
      | none => exact ⟨e, by simp [loadWasmExtensions, hlibv, he]⟩
      | some entry =>
        exact ⟨e, by simp [loadWasmExtensions, hlibv, hb, hloads, he]⟩

/-- C7 counterexample: when the first extension's wasm binary cannot be read,
the whole apply task panics (`.expect`), so the second — perfectly loadable —
extension is not loaded either; alone it would have loaded. The claim's
"logged, and only that extension is absent from the loaded set" behavior does
not hold. -/
theorem wasm_failure_panics_cex :
    loadWasmExtensions [⟨mfLib "bad", none, true⟩, ⟨mfLib "good", some [0], true⟩]
      = .error "failed to open wasm file" ∧
    loadWasmExtensions [⟨mfLib "good", some [0], true⟩] = .ok ["good"] :=
  ⟨rfl, rfl⟩

/-- C7 amended: a failure to read an extension's compiled binary or to
instantiate it panics the spawned apply task via `.expect` — aborting the
wasm-loading loop, so the failing extension and every extension after it get no
sandbox instance (registry registrations already performed by
`manifest_updated` before spawning the task are not undone); when every
extension with an entry point reads and instantiates successfully, the loop
returns exactly the ids of those extensions. -/
theorem wasm_failure_panics_apply_task :
    (∀ (pre : List WasmExtensionInput) (x : WasmExtensionInput)
       (post : List WasmExtensionInput),
        (∀ y ∈ pre, wasmOk y = true) →
        x.manifest.lib.isSome = true →
        (x.wasmBytes = none ∨ x.loads = false) →
        ∃ e, loadWasmExtensions (pre ++ x :: post) = .error e) ∧
    (∀ xs : List WasmExtensionInput, (∀ y ∈ xs, wasmOk y = true) →
        loadWasmExtensions xs =
          .ok ((xs.filter (fun y => y.manifest.lib.isSome)).map (fun y => y.manifest.id))) :=
  ⟨fun _ _ post hpre hlib hfail => loadWasmExtensions_error_at post hpre hlib hfail,
   fun _ h => loadWasmExtensions_ok_of_all h⟩

/-- Witness for C7's amended theorem at a concrete input. -/
theorem wasm_failure_panics_apply_task_witness :
    ∃ e, loadWasmExtensions [⟨mfLib "bad", none, true⟩, ⟨mfLib "good", some [0], true⟩]
      = .error e :=
  wasm_failure_panics_apply_task.1 [] ⟨mfLib "bad", none, true⟩
    [⟨mfLib "good", some [0], true⟩] (by simp) (by rfl) (Or.inl rfl)

/-- C9: the startup fast path. If the snapshot parses and both metadata reads
succeed with snapshot mtime at least the directory mtime, the snapshot is
applied and no scan runs; if either metadata read fails (or reports a missing
file) or the directory is strictly newer, a full reload scan is performed. -/
theorem startup_fast_path :
    ∀ (index : ExtensionIndex) (mm em : FileMetadata)
      (manifest_content : Option (Option ExtensionIndex))
      (manifest_metadata extensions_metadata : Option (Option FileMetadata)),
      (manifest_content = some (some index) → mm.mtime ≥ em.mtime →
        load manifest_content (some (some mm)) (some (some em)) = (some index, false)) ∧
      ((manifest_metadata = none ∨ manifest_metadata = some none ∨
        extensions_metadata = none ∨ extensions_metadata = some none) →
        (load manifest_content manifest_metadata extensions_metadata).2 = true) ∧
      (em.mtime > mm.mtime →
        (load manifest_content (some (some mm)) (some (some em))).2 = true) := by
  intro index mm em manifest_content manifest_metadata extensions_metadata
  refine ⟨?_, ?_, ?_⟩
  · intro hc hm
    subst hc
    simp [load, Nat.not_lt.mpr hm]
  · intro h
    cases manifest_metadata with
    | none => simp [load]
    | some mo =>
      cases mo with
      | none => simp [load]
      | some mmv =>
        cases extensions_metadata with
        | none => simp [load]
        | some eo =>
          cases eo with
          | none => simp [load]
          | some emv => rcases h with h | h | h | h <;> simp at h
  · intro h
    simp [load, h]

/-- Witness for C9 at a concrete input. -/
theorem startup_fast_path_witness :
    load (some (some emptyIndex)) (some (some ⟨5⟩)) (some (some ⟨3⟩))
      = (some emptyIndex, false) :=
  (startup_fast_path emptyIndex ⟨5⟩ ⟨3⟩ (some (some emptyIndex))
      (some (some ⟨5⟩)) (some (some ⟨3⟩))).1 rfl (by decide)

/-! ### `insertKV` lemmas -/

theorem lookupKV_insertKV_self {T : Type} (k : String) (v : T) (l : List (String × T)) :
    lookupKV k (insertKV k v l) = some v := by
  induction l with
  | nil => simp [insertKV, lookupKV]
  | cons x xs ih =>
    obtain ⟨k', v'⟩ := x
    simp only [insertKV]
    by_cases hlt : keyLt k k' = true
    · simp [hlt, lookupKV]
    · simp only [hlt, Bool.false_eq_true, if_false]
      by_cases heq : k = k'
      · simp [heq, lookupKV]
      · simp only [heq, if_false, lookupKV, if_neg heq]
        exact ih

theorem lookupKV_insertKV_ne {T : Type} {k k2 : String} (v : T) (l : List (String × T))
    (h : k2 ≠ k) : lookupKV k2 (insertKV k v l) = lookupKV k2 l := by
  induction l with
  | nil => simp [insertKV, lookupKV, h]
  | cons x xs ih =>
    obtain ⟨k', v'⟩ := x
    simp only [insertKV]
    by_cases hlt : keyLt k k' = true
    · simp only [hlt, if_pos]
      rw [lookupKV_cons_ne h]
    · simp only [hlt, Bool.false_eq_true, if_false]
      by_cases heq : k = k'
      · subst heq
        rw [if_pos rfl, lookupKV_cons_ne h, lookupKV_cons_ne h]
      · simp only [heq, if_false]
        by_cases h2 : k2 = k'
        · subst h2
          rw [@lookupKV_cons_self _ (k2, v') _, @lookupKV_cons_self _ (k2, v') _]
        · rw [lookupKV_cons_ne h2, lookupKV_cons_ne h2]
          exact ih

theorem mem_insertKV {T : Type} {p : String × T} {k : String} {v : T}
    {l : List (String × T)} (h : p ∈ insertKV k v l) : p = (k, v) ∨ p ∈ l := by
  induction l with
  | nil =>
    simp [insertKV] at h
    exact Or.inl h
  | cons x xs ih =>
    simp only [insertKV] at h
    by_cases hlt : keyLt k x.1 = true
    · rw [if_pos hlt] at h
      rcases List.mem_cons.mp h with rfl | h'
      · exact Or.inl rfl
      · exact Or.inr h'
    · rw [if_neg hlt] at h
      by_cases heq : k = x.1
      · rw [if_pos heq] at h
        rcases List.mem_cons.mp h with rfl | h'
        · exact Or.inl rfl
        · exact Or.inr (List.mem_cons_of_mem _ h')
      · rw [if_neg heq] at h
        rcases List.mem_cons.mp h with rfl | h'
        · exact Or.inr (List.mem_cons_self _ _)
        · rcases ih h' with h'' | h''
          · exact Or.inl h''
          · exact Or.inr (List.mem_cons_of_mem _ h'')

/-! ### `updateDeclaredPaths` and manifest-list lemmas -/

theorem updateDeclaredPaths_of_mem {declared : List String} {p : String} (h : p ∈ declared) :
    updateDeclaredPaths declared p = declared ++ [p] := by
  simp [updateDeclaredPaths, h]

theorem updateDeclaredPaths_of_not_mem {declared : List String} {p : String}
    (h : p ∉ declared) : updateDeclaredPaths declared p = declared := by
  simp [updateDeclaredPaths, h]

theorem updateDeclaredPaths_sub {declared : List String} {p q : String}
    (h : q ∈ updateDeclaredPaths declared p) : q ∈ declared := by
  by_cases hp : p ∈ declared
  · rw [updateDeclaredPaths_of_mem hp] at h
    rcases List.mem_append.mp h with h' | h'
    · exact h'
    · rw [List.mem_singleton.mp h']
      exact hp
  · rwa [updateDeclaredPaths_of_not_mem hp] at h

theorem processLanguageDirs_mf_languages_sub (extension_name : String)
    (ls : List (Option LanguageDirInput)) (mf : ExtensionManifest) (index : ExtensionIndex) :
    ∀ q ∈ (processLanguageDirs extension_name ls mf index).1.languages, q ∈ mf.languages := by
  induction ls generalizing mf index with
  | nil => exact fun q hq => hq
  | cons l rest ih =>
    cases l with
    | none => exact fun q hq => hq
    | some l =>
      simp only [processLanguageDirs]
      by_cases hd : l.is_dir = true
      · simp only [hd, Bool.not_true, Bool.false_eq_true, if_false]
        cases l.config with
        | none => exact fun q hq => hq
        | some config =>
          intro q hq
          exact updateDeclaredPaths_sub (ih _ _ q hq)
      · have hd' : l.is_dir = false := Bool.eq_false_iff.mpr hd
        simp only [hd', Bool.not_false, if_pos]
        exact ih mf index

theorem processLanguageDirs_mf_themes_eq (extension_name : String)
    (ls : List (Option LanguageDirInput)) (mf : ExtensionManifest) (index : ExtensionIndex) :
    (processLanguageDirs extension_name ls mf index).1.themes = mf.themes := by
  induction ls generalizing mf index with
  | nil => rfl
  | cons l rest ih =>
    cases l with
    | none => rfl
    | some l =>
      simp only [processLanguageDirs]
      by_cases hd : l.is_dir = true
      · simp only [hd, Bool.not_true, Bool.false_eq_true, if_false]
        cases l.config with
        | none => rfl
        | some config => exact ih _ _
      · have hd' : l.is_dir = false := Bool.eq_false_iff.mpr hd
        simp only [hd', Bool.not_false, if_pos]
        exact ih mf index

theorem processThemeFiles_mf_themes_sub (extension_name : String)
    (ts : List (Option ThemeFileInput)) (mf : ExtensionManifest) (index : ExtensionIndex) :
    ∀ q ∈ (processThemeFiles extension_name ts mf index).1.themes, q ∈ mf.themes := by
  induction ts generalizing mf index with
  | nil => exact fun q hq => hq
  | cons t rest ih =>
    cases t with
    | none => exact fun q hq => hq
    | some t =>
      simp only [processThemeFiles]
      cases t.theme_names with
      | none => exact ih mf index
      | some names =>
        intro q hq
        exact updateDeclaredPaths_sub (ih _ _ q hq)

theorem processThemeFiles_mf_languages_eq (extension_name : String)
    (ts : List (Option ThemeFileInput)) (mf : ExtensionManifest) (index : ExtensionIndex) :
    (processThemeFiles extension_name ts mf index).1.languages = mf.languages := by
  induction ts generalizing mf index with
  | nil => rfl
  | cons t rest ih =>
    cases t with
    | none => rfl
    | some t =>
      simp only [processThemeFiles]
      cases t.theme_names with
      | none => exact ih mf index
      | some names => exact ih _ _

theorem add_manifest_paths_sub (input : ExtensionDirInput) (index : ExtensionIndex)
    (extension_name : String) (mf0 mf' : ExtensionManifest)
    (hdn : input.dir_name = some extension_name) (hm : input.manifest = some mf0)
    (hsucc : (add_extension_to_index input index).2 = true)
    (hlook : lookupKV extension_name (add_extension_to_index input index).1.extensions
      = some mf') :
    (∀ q ∈ mf'.languages, q ∈ mf0.languages) ∧ (∀ q ∈ mf'.themes, q ∈ mf0.themes) := by
  obtain ⟨dn, mres, lds, tfs⟩ := input
  simp only at hdn hm
  subst hdn
  subst hm
  cases lds with
  | none =>
    cases tfs with
    | none =>
      simp only [add_extension_to_index, Bool.not_true, Bool.false_eq_true, if_false] at hlook
      rw [lookupKV_insertKV_self] at hlook
      obtain rfl : mf0 = mf' := Option.some.inj hlook
      exact ⟨fun q hq => hq, fun q hq => hq⟩
    | some ts =>
      by_cases h2 : (processThemeFiles extension_name ts mf0 index).2.2 = true
      · simp only [add_extension_to_index, Bool.not_true, Bool.false_eq_true, if_false,
          h2, Bool.not_false] at hlook
        rw [lookupKV_insertKV_self] at hlook
        obtain rfl : (processThemeFiles extension_name ts mf0 index).1 = mf' :=
          Option.some.inj hlook
        refine ⟨?_, processThemeFiles_mf_themes_sub _ _ _ _⟩
        rw [processThemeFiles_mf_languages_eq]
        exact fun q hq => hq
      · have h2' : (processThemeFiles extension_name ts mf0 index).2.2 = false :=
          Bool.eq_false_iff.mpr h2
        simp only [add_extension_to_index, Bool.not_true, Bool.false_eq_true, if_false,
          h2', Bool.not_false, if_pos] at hsucc
  | some ls =>
    by_cases h1 : (processLanguageDirs extension_name ls mf0 index).2.2 = true
    · have hlang : ∀ q ∈ (processLanguageDirs extension_name ls mf0 index).1.languages,
          q ∈ mf0.languages := processLanguageDirs_mf_languages_sub _ _ _ _
      have hthem : (processLanguageDirs extension_name ls mf0 index).1.themes = mf0.themes :=
        processLanguageDirs_mf_themes_eq _ _ _ _
      cases tfs with
      | none =>
        simp only [add_extension_to_index, h1, Bool.not_true, Bool.false_eq_true,
          if_false] at hlook
        rw [lookupKV_insertKV_self] at hlook
        obtain rfl : (processLanguageDirs extension_name ls mf0 index).1 = mf' :=
          Option.some.inj hlook
        exact ⟨hlang, fun q hq => hthem ▸ hq⟩
      | some ts =>
        by_cases h2 : (processThemeFiles extension_name ts
            (processLanguageDirs extension_name ls mf0 index).1
            (processLanguageDirs extension_name ls mf0 index).2.1).2.2 = true
        · simp only [add_extension_to_index, h1, h2, Bool.not_true, Bool.false_eq_true,
            if_false] at hlook
          rw [lookupKV_insertKV_self] at hlook
          obtain rfl := Option.some.inj hlook
          constructor
          · rw [processThemeFiles_mf_languages_eq]
            exact hlang
          · intro q hq
            have := processThemeFiles_mf_themes_sub _ _ _ _ q hq
            rw [hthem] at this
            exact this
        · have h2' := Bool.eq_false_iff.mpr h2
          simp only [add_extension_to_index, h1, h2', Bool.not_true, Bool.not_false,
            Bool.false_eq_true, if_false, if_pos] at hsucc
    · have h1' := Bool.eq_false_iff.mpr h1
      simp only [add_extension_to_index, h1', Bool.not_false, if_pos] at hsucc
      simp at hsucc

/-- C10: the declared-path list update of `add_extension_to_index` appends a
parsed sub-entry path again when (and only when) it is already declared —
producing duplicates of declared paths but never adding an undeclared one; and
every successfully indexed extension's stored manifest lists contain only
originally declared paths. The concrete fixture shows the duplicate. -/
theorem declared_path_lists_gain_only_duplicates :
    (∀ (declared : List String) (p : String),
      (p ∈ declared → updateDeclaredPaths declared p = declared ++ [p]) ∧
      (p ∉ declared → updateDeclaredPaths declared p = declared) ∧
      (∀ q ∈ updateDeclaredPaths declared p, q ∈ declared)) ∧
    (∀ (input : ExtensionDirInput) (index : ExtensionIndex) (extension_name : String)
       (mf0 mf' : ExtensionManifest),
        input.dir_name = some extension_name →
        input.manifest = some mf0 →
        (add_extension_to_index input index).2 = true →
        lookupKV extension_name (add_extension_to_index input index).1.extensions
          = some mf' →
        (∀ q ∈ mf'.languages, q ∈ mf0.languages) ∧ (∀ q ∈ mf'.themes, q ∈ mf0.themes)) ∧
    lookupKV "e" (add_extension_to_index inputDup emptyIndex).1.extensions
      = some ⟨"e", "e", "1", none, none, [], none, [],
              ["languages/a", "languages/a"], [], []⟩ := by
  refine ⟨?_, add_manifest_paths_sub, ?_⟩
  · intro declared p
    exact ⟨fun h => updateDeclaredPaths_of_mem h,
      fun h => updateDeclaredPaths_of_not_mem h,
      fun q hq => updateDeclaredPaths_sub hq⟩
  · decide

/-- Witness for C10 at a concrete input. -/
theorem declared_path_lists_gain_only_duplicates_witness :
    updateDeclaredPaths ["languages/a"] "languages/a" = ["languages/a"] ++ ["languages/a"] :=
  (declared_path_lists_gain_only_duplicates.1 ["languages/a"] "languages/a").1 (by decide)

/-! ### Index effects of the scan loops -/

theorem processLanguageDirs_idx_extensions_eq (extension_name : String)
    (ls : List (Option LanguageDirInput)) (mf : ExtensionManifest) (index : ExtensionIndex) :
    (processLanguageDirs extension_name ls mf index).2.1.extensions = index.extensions := by
  induction ls generalizing mf index with
  | nil => rfl
  | cons l rest ih =>
    cases l with
    | none => rfl
    | some l =>
      simp only [processLanguageDirs]
      by_cases hd : l.is_dir = true
      · simp only [hd, Bool.not_true, Bool.false_eq_true, if_false]
        cases l.config with
        | none => rfl
        | some config => exact ih _ _
      · have hd' : l.is_dir = false := Bool.eq_false_iff.mpr hd
        simp only [hd', Bool.not_false, if_pos]
        exact ih mf index

theorem processLanguageDirs_idx_themes_eq (extension_name : String)
    (ls : List (Option LanguageDirInput)) (mf : ExtensionManifest) (index : ExtensionIndex) :
    (processLanguageDirs extension_name ls mf index).2.1.themes = index.themes := by
  induction ls generalizing mf index with
  | nil => rfl
  | cons l rest ih =>
    cases l with
    | none => rfl
    | some l =>
      simp only [processLanguageDirs]
      by_cases hd : l.is_dir = true
      · simp only [hd, Bool.not_true, Bool.false_eq_true, if_false]
        cases l.config with
        | none => rfl
        | some config => exact ih _ _
      · have hd' : l.is_dir = false := Bool.eq_false_iff.mpr hd
        simp only [hd', Bool.not_false, if_pos]
        exact ih mf index

theorem processThemeFiles_idx_extensions_eq (extension_name : String)
    (ts : List (Option ThemeFileInput)) (mf : ExtensionManifest) (index : ExtensionIndex) :
    (processThemeFiles extension_name ts mf index).2.1.extensions = index.extensions := by
  induction ts generalizing mf index with
  | nil => rfl
  | cons t rest ih =>
    cases t with
    | none => rfl
    | some t =>
      simp only [processThemeFiles]
      cases t.theme_names with
      | none => exact ih mf index
      | some names => exact ih _ _

theorem processThemeFiles_idx_languages_eq (extension_name : String)
    (ts : List (Option ThemeFileInput)) (mf : ExtensionManifest) (index : ExtensionIndex) :
    (processThemeFiles extension_name ts mf index).2.1.languages = index.languages := by
  induction ts generalizing mf index with
  | nil => rfl
  | cons t rest ih =>
    cases t with
    | none => rfl
    | some t =>
      simp only [processThemeFiles]
      cases t.theme_names with
      | none => exact ih mf index
      | some names => exact ih _ _

theorem processLanguageDirs_languages_entries (extension_name : String)
    (ls : List (Option LanguageDirInput)) (mf : ExtensionManifest) (index : ExtensionIndex)
    {p : String × ExtensionIndexLanguageEntry}
    (hp : p ∈ (processLanguageDirs extension_name ls mf index).2.1.languages) :
    p ∈ index.languages ∨ p.2.extension = extension_name := by
  induction ls generalizing mf index with
  | nil => exact Or.inl hp
  | cons l rest ih =>
    cases l with
    | none => exact Or.inl hp
    | some l =>
      simp only [processLanguageDirs] at hp
      by_cases hd : l.is_dir = true
      · simp only [hd, Bool.not_true, Bool.false_eq_true, if_false] at hp
        cases hc : l.config with
        | none =>
          rw [hc] at hp
          exact Or.inl hp
        | some config =>
          rw [hc] at hp
          rcases ih _ _ hp with h | h
          · rcases mem_insertKV h with rfl | h'
            · exact Or.inr rfl
            · exact Or.inl h'
          · exact Or.inr h
      · have hd' : l.is_dir = false := Bool.eq_false_iff.mpr hd
        simp only [hd', Bool.not_false, if_pos] at hp
        exact ih mf index hp

theorem mem_foldl_insert_themes {extension_name path : String} {names : List String}
    {acc : List (String × ExtensionIndexEntry)} {p : String × ExtensionIndexEntry}
    (hp : p ∈ names.foldl
      (fun acc theme_name =>
        insertKV theme_name ⟨extension_name, path⟩ acc) acc) :
    p ∈ acc ∨ p.2.extension = extension_name := by
  induction names generalizing acc with
  | nil => exact Or.inl hp
  | cons n rest ih =>
    simp only [List.foldl_cons] at hp
    rcases ih hp with h | h
    · rcases mem_insertKV h with rfl | h'
      · exact Or.inr rfl
      · exact Or.inl h'
    · exact Or.inr h

theorem processThemeFiles_themes_entries (extension_name : String)
    (ts : List (Option ThemeFileInput)) (mf : ExtensionManifest) (index : ExtensionIndex)
    {p : String × ExtensionIndexEntry}
    (hp : p ∈ (processThemeFiles extension_name ts mf index).2.1.themes) :
    p ∈ index.themes ∨ p.2.extension = extension_name := by
  induction ts generalizing mf index with
  | nil => exact Or.inl hp
  | cons t rest ih =>
    cases t with
    | none => exact Or.inl hp
    | some t =>
      simp only [processThemeFiles] at hp
      cases hn : t.theme_names with
      | none =>
        rw [hn] at hp
        exact ih mf index hp
      | some names =>
        rw [hn] at hp
        rcases ih _ _ hp with h | h
        · exact mem_foldl_insert_themes h
        · exact Or.inr h

/-! ### Success characterization of `add_extension_to_index` -/

theorem processLanguageDirs_ok_iff (extension_name : String)
    (ls : List (Option LanguageDirInput)) (mf : ExtensionManifest) (index : ExtensionIndex) :
    (processLanguageDirs extension_name ls mf index).2.2 = ls.all langEntryOk := by
  induction ls generalizing mf index with
  | nil => rfl
  | cons l rest ih =>
    cases l with
    | none => simp [processLanguageDirs, langEntryOk]
    | some l =>
      simp only [processLanguageDirs, List.all_cons]
      by_cases hd : l.is_dir = true
      · simp only [hd, Bool.not_true, Bool.false_eq_true, if_false]
        cases hc : l.config with
        | none => simp [langEntryOk, hd, hc]
        | some config => simp [langEntryOk, hd, hc, ih]
      · have hd' : l.is_dir = false := Bool.eq_false_iff.mpr hd
        simp only [hd', Bool.not_false, if_pos]
        simp [langEntryOk, hd', ih]

theorem processThemeFiles_ok_iff (extension_name : String)
    (ts : List (Option ThemeFileInput)) (mf : ExtensionManifest) (index : ExtensionIndex) :
    (processThemeFiles extension_name ts mf index).2.2 = ts.all themeEntryOk := by
  induction ts generalizing mf index with
  | nil => rfl
  | cons t rest ih =>
    cases t with
    | none => simp [processThemeFiles, themeEntryOk]
    | some t =>
      simp only [processThemeFiles, List.all_cons]
      cases t.theme_names with
      | none => simp [themeEntryOk, ih]
      | some names => simp [themeEntryOk, ih]

theorem add_ok_iff (input : ExtensionDirInput) (index : ExtensionIndex) :
    (add_extension_to_index input index).2 = dirOk input := by
  obtain ⟨dn, mres, lds, tfs⟩ := input
  cases dn with
  | none => rfl
  | some extension_name =>
    cases mres with
    | none => rfl
    | some mf =>
      simp only [add_extension_to_index, dirOk]
      cases lds with
      | none =>
        cases tfs with
        | none => rfl
        | some ts =>
          by_cases h2 : (processThemeFiles extension_name ts mf index).2.2 = true
          · rw [processThemeFiles_ok_iff] at h2
            simp [processThemeFiles_ok_iff, h2]
          · have h2' := Bool.eq_false_iff.mpr h2
            rw [processThemeFiles_ok_iff] at h2'
            simp [processThemeFiles_ok_iff, h2']
      | some ls =>
        by_cases h1 : (processLanguageDirs extension_name ls mf index).2.2 = true
        · have h1' := h1
          rw [processLanguageDirs_ok_iff] at h1'
          cases tfs with
          | none => simp [h1, h1']
          | some ts =>
            by_cases h2 : (processThemeFiles extension_name ts
                (processLanguageDirs extension_name ls mf index).1
                (processLanguageDirs extension_name ls mf index).2.1).2.2 = true
            · have h2' := h2
              rw [processThemeFiles_ok_iff] at h2'
              simp [h1, h1', h2, h2']
            · have h2' := Bool.eq_false_iff.mpr h2
              rw [processThemeFiles_ok_iff] at h2'
              simp [h1, h1', h2', Bool.eq_false_iff.mpr h2]
        · have h1' := Bool.eq_false_iff.mpr h1
          have h1'' := h1'
          rw [processLanguageDirs_ok_iff] at h1''
          simp [h1', h1'']

/-! ### Referential integrity of the scan -/

theorem refIntegrity_iff (index : ExtensionIndex) :
    refIntegrity index = true ↔
      (∀ p ∈ index.themes, (lookupKV p.2.extension index.extensions).isSome = true) ∧
      (∀ p ∈ index.languages, (lookupKV p.2.extension index.extensions).isSome = true) := by
  simp [refIntegrity, List.all_eq_true]

theorem lookupKV_isSome_insertKV {T : Type} {k : String} (k2 : String) (v : T)
    (l : List (String × T)) (h : (lookupKV k l).isSome = true) :
    (lookupKV k (insertKV k2 v l)).isSome = true := by
  by_cases hk : k = k2
  · rw [hk, lookupKV_insertKV_self]
    rfl
  · rw [lookupKV_insertKV_ne _ _ hk]
    exact h

theorem add_result_structure (input : ExtensionDirInput) (index : ExtensionIndex)
    (extension_name : String) (mf : ExtensionManifest)
    (hdn : input.dir_name = some extension_name) (hm : input.manifest = some mf)
    (hok : (add_extension_to_index input index).2 = true) :
    (∃ mf2, (add_extension_to_index input index).1.extensions
        = insertKV extension_name mf2 index.extensions) ∧
    (∀ p ∈ (add_extension_to_index input index).1.themes,
        p ∈ index.themes ∨ p.2.extension = extension_name) ∧
    (∀ p ∈ (add_extension_to_index input index).1.languages,
        p ∈ index.languages ∨ p.2.extension = extension_name) := by
  obtain ⟨dn, mres, lds, tfs⟩ := input
  simp only at hdn hm
  subst hdn
  subst hm
  cases lds with
  | none =>
    cases tfs with
    | none =>
      simp only [add_extension_to_index, Bool.not_true, Bool.false_eq_true, if_false]
      exact ⟨⟨mf, rfl⟩, fun p hp => Or.inl hp, fun p hp => Or.inl hp⟩
    | some ts =>
      by_cases h2 : (processThemeFiles extension_name ts mf index).2.2 = true
      · simp only [add_extension_to_index, Bool.not_true, Bool.false_eq_true, if_false,
          h2, Bool.not_false]
        refine ⟨⟨(processThemeFiles extension_name ts mf index).1, ?_⟩, ?_, ?_⟩
        · rw [processThemeFiles_idx_extensions_eq]
        · exact fun p hp => processThemeFiles_themes_entries _ _ _ _ hp
        · intro p hp
          rw [processThemeFiles_idx_languages_eq] at hp
          exact Or.inl hp
      · have h2' := Bool.eq_false_iff.mpr h2
        simp only [add_extension_to_index, Bool.not_true, Bool.false_eq_true, if_false,
          h2', Bool.not_false, if_pos] at hok
  | some ls =>
    by_cases h1 : (processLanguageDirs extension_name ls mf index).2.2 = true
    · cases tfs with
      | none =>
        simp only [add_extension_to_index, h1, Bool.not_true, Bool.false_eq_true, if_false]
        refine ⟨⟨(processLanguageDirs extension_name ls mf index).1, ?_⟩, ?_, ?_⟩
        · rw [processLanguageDirs_idx_extensions_eq]
        · intro p hp
          rw [processLanguageDirs_idx_themes_eq] at hp
          exact Or.inl hp
        · exact fun p hp => processLanguageDirs_languages_entries _ _ _ _ hp
      | some ts =>
        by_cases h2 : (processThemeFiles extension_name ts
            (processLanguageDirs extension_name ls mf index).1
            (processLanguageDirs extension_name ls mf index).2.1).2.2 = true
        · simp only [add_extension_to_index, h1, h2, Bool.not_true, Bool.false_eq_true,
            if_false]
          refine ⟨⟨(processThemeFiles extension_name ts
              (processLanguageDirs extension_name ls mf index).1
              (processLanguageDirs extension_name ls mf index).2.1).1, ?_⟩, ?_, ?_⟩
          · rw [processThemeFiles_idx_extensions_eq, processLanguageDirs_idx_extensions_eq]
          · intro p hp
            rcases processThemeFiles_themes_entries _ _ _ _ hp with h' | h'
            · rw [processLanguageDirs_idx_themes_eq] at h'
              exact Or.inl h'
            · exact Or.inr h'
          · intro p hp
            rw [processThemeFiles_idx_languages_eq] at hp
            exact processLanguageDirs_languages_entries _ _ _ _ hp
        · have h2' := Bool.eq_false_iff.mpr h2
          simp only [add_extension_to_index, h1, h2', Bool.not_true, Bool.not_false,
            Bool.false_eq_true, if_false, if_pos] at hok
    · have h1' := Bool.eq_false_iff.mpr h1
      simp only [add_extension_to_index, h1', Bool.not_false, if_pos] at hok
      exact Bool.noConfusion hok

theorem add_preserves_refIntegrity (input : ExtensionDirInput) (index : ExtensionIndex)
    (hok : (add_extension_to_index input index).2 = true)
    (h : refIntegrity index = true) :
    refIntegrity (add_extension_to_index input index).1 = true := by
  rcases hdn : input.dir_name with _ | extension_name
  · obtain ⟨dn, mres, lds, tfs⟩ := input
    simp only at hdn
    subst hdn
    exact absurd hok (by simp [add_extension_to_index])
  · rcases hm : input.manifest with _ | mf
    · obtain ⟨dn, mres, lds, tfs⟩ := input
      simp only at hdn hm
      subst hdn
      subst hm
      exact absurd hok (by simp [add_extension_to_index])
    · obtain ⟨⟨mf2, hext⟩, hth, hlang⟩ :=
        add_result_structure input index extension_name mf hdn hm hok
      rw [refIntegrity_iff] at h ⊢
      obtain ⟨hthemes, hlangs⟩ := h
      constructor
      · intro p hp
        rw [hext]
        rcases hth p hp with h' | h'
        · exact lookupKV_isSome_insertKV _ _ _ (hthemes p h')
        · rw [h', lookupKV_insertKV_self]
          rfl
      · intro p hp
        rw [hext]
        rcases hlang p hp with h' | h'
        · exact lookupKV_isSome_insertKV _ _ _ (hlangs p h')
        · rw [h', lookupKV_insertKV_self]
          rfl

theorem foldl_add_refIntegrity (dirs : List ExtensionDirInput) :
    ∀ index : ExtensionIndex, refIntegrity index = true →
      (∀ d ∈ dirs, dirOk d = true) →
      refIntegrity
        (dirs.foldl (fun index dir => (add_extension_to_index dir index).1) index) = true := by
  induction dirs with
  | nil => exact fun index h _ => h
  | cons d rest ih =>
    intro index h hall
    simp only [List.foldl_cons]
    refine ih _ ?_ (fun d' hd' => hall d' (List.mem_cons_of_mem _ hd'))
    refine add_preserves_refIntegrity d index ?_ h
    rw [add_ok_iff]
    exact hall d (List.mem_cons_self d rest)

/-- C2 counterexample: scanning a directory whose extension fails to parse
partway — after its first language sub-entry was already inserted — leaves the
language entry "A" in the index while the owning extension key "e" is absent,
violating referential integrity. -/
theorem scan_referential_integrity_cex :
    refIntegrity (buildIndex [inputLangFail]) = false ∧
    (lookupKV "A" (buildIndex [inputLangFail]).languages).isSome = true ∧
    lookupKV "e" (buildIndex [inputLangFail]).extensions = none := by
  decide

/-- C2 amended: referential integrity holds for every index built by a scan in
which every extension directory parses to completion; when a directory fails
partway (e.g. an invalid language `config.toml` after earlier sub-entries were
inserted), the already-inserted entries remain in the index without their
extension key, so the invariant as claimed can be violated. -/
theorem scan_referential_integrity_on_success :
    ∀ dirs : List ExtensionDirInput,
      (∀ d ∈ dirs, dirOk d = true) → refIntegrity (buildIndex dirs) = true := by
  intro dirs h
  exact foldl_add_refIntegrity dirs emptyIndex rfl h

/-- Witness for C2's amended theorem at a concrete input. -/
theorem scan_referential_integrity_on_success_witness :
    refIntegrity (buildIndex [⟨some "e", some mfPlain, some [], some []⟩]) = true :=
  scan_referential_integrity_on_success [⟨some "e", some mfPlain, some [], some []⟩]
    (by decide)

/-! ### Presence of successfully parsed sub-entries -/

theorem lookupKV_isSome_foldl_insert_themes {k extension_name path : String}
    {names : List String} {acc : List (String × ExtensionIndexEntry)}
    (h : (lookupKV k acc).isSome = true) :
    (lookupKV k (names.foldl
      (fun acc theme_name => insertKV theme_name ⟨extension_name, path⟩ acc) acc)).isSome
      = true := by
  induction names generalizing acc with
  | nil => exact h
  | cons n rest ih =>
    simp only [List.foldl_cons]
    exact ih (lookupKV_isSome_insertKV _ _ _ h)

theorem lookupKV_foldl_insert_themes_mem {name extension_name path : String}
    {names : List String} {acc : List (String × ExtensionIndexEntry)}
    (h : name ∈ names) :
    (lookupKV name (names.foldl
      (fun acc theme_name => insertKV theme_name ⟨extension_name, path⟩ acc) acc)).isSome
      = true := by
  induction names generalizing acc with
  | nil => simp at h
  | cons n rest ih =>
    simp only [List.foldl_cons]
    rcases List.mem_cons.mp h with rfl | h'
    · apply lookupKV_isSome_foldl_insert_themes
      rw [lookupKV_insertKV_self]
      rfl
    · exact ih h'

theorem processThemeFiles_themes_mono {k extension_name : String}
    {ts : List (Option ThemeFileInput)} {mf : ExtensionManifest} {index : ExtensionIndex}
    (h : (lookupKV k index.themes).isSome = true) :
    (lookupKV k (processThemeFiles extension_name ts mf index).2.1.themes).isSome = true := by
  induction ts generalizing mf index with
  | nil => exact h
  | cons t rest ih =>
    cases t with
    | none => exact h
    | some t =>
      simp only [processThemeFiles]
      cases t.theme_names with
      | none => exact ih h
      | some names => exact ih (lookupKV_isSome_foldl_insert_themes h)

theorem processThemeFiles_theme_present {extension_name : String}
    {ts : List (Option ThemeFileInput)} {mf : ExtensionManifest} {index : ExtensionIndex}
    {t : ThemeFileInput} {names : List String} {name : String}
    (hall : ts.all themeEntryOk = true)
    (ht : some t ∈ ts) (hn : t.theme_names = some names) (hm : name ∈ names) :
    (lookupKV name (processThemeFiles extension_name ts mf index).2.1.themes).isSome
      = true := by
  induction ts generalizing mf index with
  | nil => simp at ht
  | cons x rest ih =>
    rw [List.all_cons, Bool.and_eq_true] at hall
    rcases List.mem_cons.mp ht with heq | hrest
    · obtain rfl : x = some t := heq.symm
      simp only [processThemeFiles, hn]
      exact processThemeFiles_themes_mono (lookupKV_foldl_insert_themes_mem hm)
    · cases x with
      | none => exact absurd hall.1 (by simp [themeEntryOk])
      | some x =>
        simp only [processThemeFiles]
        cases x.theme_names with
        | none => exact ih hall.2 hrest
        | some ns => exact ih hall.2 hrest

theorem processLanguageDirs_languages_mono {k extension_name : String}
    {ls : List (Option LanguageDirInput)} {mf : ExtensionManifest} {index : ExtensionIndex}
    (h : (lookupKV k index.languages).isSome = true) :
    (lookupKV k (processLanguageDirs extension_name ls mf index).2.1.languages).isSome
      = true := by
  induction ls generalizing mf index with
  | nil => exact h
  | cons l rest ih =>
    cases l with
    | none => exact h
    | some l =>
      simp only [processLanguageDirs]
      by_cases hd : l.is_dir = true
      · simp only [hd, Bool.not_true, Bool.false_eq_true, if_false]
        cases l.config with
        | none => exact h
        | some config => exact ih (lookupKV_isSome_insertKV _ _ _ h)
      · have hd' : l.is_dir = false := Bool.eq_false_iff.mpr hd
        simp only [hd', Bool.not_false, if_pos]
        exact ih h

theorem processLanguageDirs_language_present {extension_name : String}
    {ls : List (Option LanguageDirInput)} {mf : ExtensionManifest} {index : ExtensionIndex}
    {l : LanguageDirInput} {config : LanguageConfig}
    (hall : ls.all langEntryOk = true)
    (hl : some l ∈ ls) (hd : l.is_dir = true) (hc : l.config = some config) :
    (lookupKV config.name
      (processLanguageDirs extension_name ls mf index).2.1.languages).isSome = true := by
  induction ls generalizing mf index with
  | nil => simp at hl
  | cons x rest ih =>
    rw [List.all_cons, Bool.and_eq_true] at hall
    rcases List.mem_cons.mp hl with heq | hrest
    · obtain rfl : x = some l := heq.symm
      simp only [processLanguageDirs, hd, Bool.not_true, Bool.false_eq_true, if_false, hc]
      apply processLanguageDirs_languages_mono
      rw [lookupKV_insertKV_self]
      rfl
    · cases x with
      | none => exact absurd hall.1 (by simp [langEntryOk])
      | some x =>
        simp only [processLanguageDirs]
        by_cases hxd : x.is_dir = true
        · simp only [hxd, Bool.not_true, Bool.false_eq_true, if_false]
          cases hxc : x.config with
          | none =>
            have := hall.1
            simp [langEntryOk, hxd, hxc] at this
          | some config2 => exact ih hall.2 hrest
        · have hxd' : x.is_dir = false := Bool.eq_false_iff.mpr hxd
          simp only [hxd', Bool.not_false, if_pos]
          exact ih hall.2 hrest

theorem add_extension_present (input : ExtensionDirInput) (index : ExtensionIndex)
    (extension_name : String) (hdn : input.dir_name = some extension_name)
    (hok : (add_extension_to_index input index).2 = true) :
    (lookupKV extension_name (add_extension_to_index input index).1.extensions).isSome
      = true := by
  have hdo : dirOk input = true := by rw [← add_ok_iff input index]; exact hok
  have hms : input.manifest.isSome = true := by
    simp only [dirOk, Bool.and_eq_true] at hdo
    exact hdo.1.1.2
  obtain ⟨mf, hmf⟩ := Option.isSome_iff_exists.mp hms
  obtain ⟨⟨mf2, hext⟩, -, -⟩ := add_result_structure input index extension_name mf hdn hmf hok
  rw [hext, lookupKV_insertKV_self]
  rfl

theorem add_themes_eq (input : ExtensionDirInput) (index : ExtensionIndex)
    (extension_name : String) (mf : ExtensionManifest) (ts : List (Option ThemeFileInput))
    (hdn : input.dir_name = some extension_name) (hm : input.manifest = some mf)
    (htf : input.themeFiles = some ts)
    (hok : (add_extension_to_index input index).2 = true) :
    ∃ (mf1 : ExtensionManifest) (idx1 : ExtensionIndex),
      (add_extension_to_index input index).1.themes
        = (processThemeFiles extension_name ts mf1 idx1).2.1.themes := by
  obtain ⟨dn, mres, lds, tfs⟩ := input
  simp only at hdn hm htf
  subst hdn
  subst hm
  subst htf
  cases lds with
  | none =>
    by_cases h2 : (processThemeFiles extension_name ts mf index).2.2 = true
    · refine ⟨mf, index, ?_⟩
      simp only [add_extension_to_index, Bool.not_true, Bool.false_eq_true, if_false,
        h2, Bool.not_false]
    · have h2' := Bool.eq_false_iff.mpr h2
      simp only [add_extension_to_index, Bool.not_true, Bool.false_eq_true, if_false,
        h2', Bool.not_false, if_pos] at hok
  | some ls =>
    by_cases h1 : (processLanguageDirs extension_name ls mf index).2.2 = true
    · by_cases h2 : (processThemeFiles extension_name ts
          (processLanguageDirs extension_name ls mf index).1
          (processLanguageDirs extension_name ls mf index).2.1).2.2 = true
      · refine ⟨(processLanguageDirs extension_name ls mf index).1,
          (processLanguageDirs extension_name ls mf index).2.1, ?_⟩
        simp only [add_extension_to_index, h1, h2, Bool.not_true, Bool.false_eq_true,
          if_false]
      · have h2' := Bool.eq_false_iff.mpr h2
        simp only [add_extension_to_index, h1, h2', Bool.not_true, Bool.not_false,
          Bool.false_eq_true, if_false, if_pos] at hok
    · have h1' := Bool.eq_false_iff.mpr h1
      simp only [add_extension_to_index, h1', Bool.not_false, if_pos] at hok
      exact Bool.noConfusion hok

theorem add_languages_eq (input : ExtensionDirInput) (index : ExtensionIndex)
    (extension_name : String) (mf : ExtensionManifest) (ls : List (Option LanguageDirInput))
    (hdn : input.dir_name = some extension_name) (hm : input.manifest = some mf)
    (hld : input.languageDirs = some ls)
    (hok : (add_extension_to_index input index).2 = true) :
    (add_extension_to_index input index).1.languages
      = (processLanguageDirs extension_name ls mf index).2.1.languages := by
  obtain ⟨dn, mres, lds, tfs⟩ := input
  simp only at hdn hm hld
  subst hdn
  subst hm
  subst hld
  by_cases h1 : (processLanguageDirs extension_name ls mf index).2.2 = true
  · cases tfs with
    | none =>
      simp only [add_extension_to_index, h1, Bool.not_true, Bool.false_eq_true, if_false]
    | some ts =>
      by_cases h2 : (processThemeFiles extension_name ts
          (processLanguageDirs extension_name ls mf index).1
          (processLanguageDirs extension_name ls mf index).2.1).2.2 = true
      · simp only [add_extension_to_index, h1, h2, Bool.not_true, Bool.false_eq_true,
          if_false]
        rw [processThemeFiles_idx_languages_eq]
      · have h2' := Bool.eq_false_iff.mpr h2
        simp only [add_extension_to_index, h1, h2', Bool.not_true, Bool.not_false,
          Bool.false_eq_true, if_false, if_pos] at hok
  · have h1' := Bool.eq_false_iff.mpr h1
    simp only [add_extension_to_index, h1', Bool.not_false, if_pos] at hok
    exact Bool.noConfusion hok

/-- C6 counterexample: an invalid language `config.toml` does not merely skip
that sub-entry — it makes `add_extension_to_index` fail, so the containing
extension is absent from the resulting index even though its `extension.json`
is present and well-formed; an invalid theme file, by contrast, really is only
skipped. -/
theorem language_subentry_failure_aborts_extension_cex :
    (add_extension_to_index inputLangFail emptyIndex).2 = false ∧
    lookupKV "e" (add_extension_to_index inputLangFail emptyIndex).1.extensions = none ∧
    (add_extension_to_index inputThemeFail emptyIndex).2 = true ∧
    (lookupKV "e" (add_extension_to_index inputThemeFail emptyIndex).1.extensions).isSome
      = true ∧
    (lookupKV "Good Dark"
      (add_extension_to_index inputThemeFail emptyIndex).1.themes).isSome = true := by
  decide

/-- C6 amended: a theme sub-entry whose parse fails is only skipped (the
extension and its other sub-entries are still indexed), but a language
sub-entry whose `config.toml` fails to load or parse aborts the whole
extension: `add_extension_to_index` succeeds exactly when the directory name
and manifest parse, every language directory entry is either skipped or
parses, and no directory-listing entry errors — theme parse failures never
affect inclusion. Under success, the extension key and every successfully
parsed theme and language sub-entry are present in the index. -/
theorem theme_failure_skips_language_failure_aborts :
    (∀ (input : ExtensionDirInput) (index : ExtensionIndex),
        (add_extension_to_index input index).2 = dirOk input) ∧
    (∀ t : ThemeFileInput, themeEntryOk (some t) = true) ∧
    (∀ l : LanguageDirInput, l.is_dir = true → l.config = none →
        langEntryOk (some l) = false) ∧
    (∀ (input : ExtensionDirInput) (index : ExtensionIndex) (extension_name : String),
        input.dir_name = some extension_name →
        (add_extension_to_index input index).2 = true →
        (lookupKV extension_name
          (add_extension_to_index input index).1.extensions).isSome = true) ∧
    (∀ (input : ExtensionDirInput) (index : ExtensionIndex) (extension_name : String)
       (ts : List (Option ThemeFileInput)) (t : ThemeFileInput) (names : List String)
       (name : String),
        input.dir_name = some extension_name →
        input.themeFiles = some ts →
        (add_extension_to_index input index).2 = true →
        some t ∈ ts → t.theme_names = some names → name ∈ names →
        (lookupKV name (add_extension_to_index input index).1.themes).isSome = true) ∧
    (∀ (input : ExtensionDirInput) (index : ExtensionIndex) (extension_name : String)
       (ls : List (Option LanguageDirInput)) (l : LanguageDirInput)
       (config : LanguageConfig),
        input.dir_name = some extension_name →
        input.languageDirs = some ls →
        (add_extension_to_index input index).2 = true →
        some l ∈ ls → l.is_dir = true → l.config = some config →
        (lookupKV config.name
          (add_extension_to_index input index).1.languages).isSome = true) := by
  refine ⟨add_ok_iff, fun t => rfl, ?_, add_extension_present, ?_, ?_⟩
  · intro l hd hc
    simp [langEntryOk, hd, hc]
  · intro input index extension_name ts t names name hdn htf hok ht hn hnm
    have hdo : dirOk input = true := by rw [← add_ok_iff input index]; exact hok
    have hms : input.manifest.isSome = true := by
      simp only [dirOk, Bool.and_eq_true] at hdo
      exact hdo.1.1.2
    obtain ⟨mf, hmf⟩ := Option.isSome_iff_exists.mp hms
    have hall : ts.all themeEntryOk = true := by
      simp only [dirOk, Bool.and_eq_true, htf] at hdo
      exact hdo.2
    obtain ⟨mf1, idx1, hthemes⟩ := add_themes_eq input index extension_name mf ts hdn hmf htf hok
    rw [hthemes]
    exact processThemeFiles_theme_present hall ht hn hnm
  · intro input index extension_name ls l config hdn hld hok hl hd hc
    have hdo : dirOk input = true := by rw [← add_ok_iff input index]; exact hok
    have hms : input.manifest.isSome = true := by
      simp only [dirOk, Bool.and_eq_true] at hdo
      exact hdo.1.1.2
    obtain ⟨mf, hmf⟩ := Option.isSome_iff_exists.mp hms
    have hall : ls.all langEntryOk = true := by
      simp only [dirOk, Bool.and_eq_true, hld] at hdo
      exact hdo.1.2
    rw [add_languages_eq input index extension_name mf ls hdn hmf hld hok]
    exact processLanguageDirs_language_present hall hl hd hc

/-- Witness for C6's amended theorem at a concrete input. -/
theorem theme_failure_skips_language_failure_aborts_witness :
    (lookupKV "Good Dark"
      (add_extension_to_index inputThemeFail emptyIndex).1.themes).isSome = true :=
  theme_failure_skips_language_failure_aborts.2.2.2.2.1 inputThemeFail emptyIndex "e"
    [some ⟨"themes/good.json", some ["Good Dark", "Good Light"]⟩,
     some ⟨"themes/bad.json", none⟩]
    ⟨"themes/good.json", some ["Good Dark", "Good Light"]⟩
    ["Good Dark", "Good Light"] "Good Dark" rfl rfl (by decide)
    (by decide) rfl (by decide)

/-! ### `manifest_updated` per-category behavior -/

theorem mem_themesToRemove (old_index : ExtensionIndex) (toUnload : List String)
    (name : String) :
    name ∈ themesToRemove old_index toUnload ↔
      ∃ entry, (name, entry) ∈ old_index.themes ∧ entry.extension ∈ toUnload := by
  constructor
  · intro h
    obtain ⟨p, hp, hp1⟩ := List.mem_map.mp h
    obtain ⟨hmem, hcond⟩ := List.mem_filter.mp hp
    refine ⟨p.2, ?_, ?_⟩
    · rw [← hp1]
      simpa using hmem
    · exact List.mem_of_elem_eq_true hcond
  · rintro ⟨entry, hmem, hun⟩
    exact List.mem_map.mpr ⟨(name, entry),
      List.mem_filter.mpr ⟨hmem, List.elem_eq_true_of_mem hun⟩, rfl⟩

theorem mem_languagesToRemove (old_index : ExtensionIndex) (toUnload : List String)
    (name : String) :
    name ∈ languagesToRemove old_index toUnload ↔
      ∃ entry, (name, entry) ∈ old_index.languages ∧ entry.extension ∈ toUnload := by
  constructor
  · intro h
    obtain ⟨p, hp, hp1⟩ := List.mem_map.mp h
    obtain ⟨hmem, hcond⟩ := List.mem_filter.mp hp
    refine ⟨p.2, ?_, ?_⟩
    · rw [← hp1]
      simpa using hmem
    · exact List.mem_of_elem_eq_true hcond
  · rintro ⟨entry, hmem, hun⟩
    exact List.mem_map.mpr ⟨(name, entry),
      List.mem_filter.mpr ⟨hmem, List.elem_eq_true_of_mem hun⟩, rfl⟩

theorem mem_languagesToAdd (new_index : ExtensionIndex) (toLoad : List String)
    (name : String) (entry : ExtensionIndexLanguageEntry) :
    (name, entry) ∈ languagesToAdd new_index toLoad ↔
      (name, entry) ∈ new_index.languages ∧ entry.extension ∈ toLoad := by
  simp only [languagesToAdd, List.mem_filter]
  constructor
  · rintro ⟨hmem, hcond⟩
    exact ⟨hmem, List.mem_of_elem_eq_true hcond⟩
  · rintro ⟨hmem, hld⟩
    exact ⟨hmem, List.elem_eq_true_of_mem hld⟩

theorem languagesToAdd_skips_unchanged (old_index new_index : ExtensionIndex)
    (m : String → Bool) (name : String) (entry : ExtensionIndexLanguageEntry)
    (ho : sortedKeys old_index.extensions = true)
    (hn : sortedKeys new_index.extensions = true)
    (heq : lookupKV entry.extension old_index.extensions
      = lookupKV entry.extension new_index.extensions)
    (hsome : (lookupKV entry.extension new_index.extensions).isSome = true)
    (hm : m entry.extension = false) :
    (name, entry) ∉ languagesToAdd new_index (extensionsDiff old_index new_index m).2 := by
  intro hmem
  rw [mem_languagesToAdd] at hmem
  obtain ⟨v, hv⟩ := Option.isSome_iff_exists.mp hsome
  have hnot : entry.extension ∉ (diff old_index.extensions new_index.extensions m).2 := by
    rw [diff_eq_spec _ _ _ ho hn]
    exact not_mem_addedSpec_unchanged hn (heq.trans hv) hv hm
  exact hnot hmem.2

/-- C1 counterexample: diffing `oldIdxC1` against `newIdxC1` with an empty
modified set. The language key "L" is present only in the new index and the
theme key "T" only in the old index, yet — because the owning extension's
manifest is structurally equal, so "e" lands in neither `extensions_to_load`
nor `extensions_to_unload` — `languages_to_add` and `themes_to_remove` are both
empty: the per-category merge-walk rule the claim states is not applied to the
themes/languages categories. -/
theorem index_differ_not_per_category_cex :
    lookupKV "L" oldIdxC1.languages = none ∧
    (lookupKV "L" newIdxC1.languages).isSome = true ∧
    (lookupKV "T" oldIdxC1.themes).isSome = true ∧
    lookupKV "T" newIdxC1.themes = none ∧
    languagesToAdd newIdxC1 (extensionsDiff oldIdxC1 newIdxC1 (fun _ => false)).2 = [] ∧
    themesToRemove oldIdxC1 (extensionsDiff oldIdxC1 newIdxC1 (fun _ => false)).1 = [] := by
  refine ⟨rfl, rfl, rfl, rfl, ?_, ?_⟩
  · show languagesToAdd newIdxC1
      (diff [("e", mfPlain)] [("e", mfPlain)] (fun _ => false)).2 = []
    rw [diff_self_empty]
    rfl
  · show themesToRemove oldIdxC1
      (diff [("e", mfPlain)] [("e", mfPlain)] (fun _ => false)).1 = []
    rw [diff_self_empty]
    rfl

/-- C1 amended: the merge-walk `diff` is applied only to the `extensions`
category; `themes_to_remove` and `languages_to_remove` contain exactly the old
keys whose owning extension id is in `extensions_to_unload`, and
`languages_to_add` contains exactly the new entries whose owning extension id
is in `extensions_to_load`. Consequently a theme or language key present only
in the new index is not registered when its owning extension's manifest is
present and structurally equal in both indices and the extension id is not in
the modified set. -/
theorem index_differ_per_extension_only :
    (∀ (old_index : ExtensionIndex) (toUnload : List String) (name : String),
        (name ∈ themesToRemove old_index toUnload ↔
          ∃ entry, (name, entry) ∈ old_index.themes ∧ entry.extension ∈ toUnload) ∧
        (name ∈ languagesToRemove old_index toUnload ↔
          ∃ entry, (name, entry) ∈ old_index.languages ∧ entry.extension ∈ toUnload)) ∧
    (∀ (new_index : ExtensionIndex) (toLoad : List String) (name : String)
       (entry : ExtensionIndexLanguageEntry),
        (name, entry) ∈ languagesToAdd new_index toLoad ↔
          (name, entry) ∈ new_index.languages ∧ entry.extension ∈ toLoad) ∧
    (∀ (old_index new_index : ExtensionIndex) (m : String → Bool) (name : String)
       (entry : ExtensionIndexLanguageEntry),
        sortedKeys old_index.extensions = true →
        sortedKeys new_index.extensions = true →
        lookupKV entry.extension old_index.extensions
          = lookupKV entry.extension new_index.extensions →
        (lookupKV entry.extension new_index.extensions).isSome = true →
        m entry.extension = false →
        (name, entry) ∉
          languagesToAdd new_index (extensionsDiff old_index new_index m).2) :=
  ⟨fun old_index toUnload name =>
      ⟨mem_themesToRemove old_index toUnload name,
       mem_languagesToRemove old_index toUnload name⟩,
   mem_languagesToAdd,
   languagesToAdd_skips_unchanged⟩

/-- Witness for C1's amended theorem at the concrete fixture. -/
theorem index_differ_per_extension_only_witness :
    ("L", (⟨"e", "languages/l", ⟨[], none⟩, none⟩ : ExtensionIndexLanguageEntry)) ∉
      languagesToAdd newIdxC1 (extensionsDiff oldIdxC1 newIdxC1 (fun _ => false)).2 :=
  index_differ_per_extension_only.2.2 oldIdxC1 newIdxC1 (fun _ => false) "L"
    ⟨"e", "languages/l", ⟨[], none⟩, none⟩ (by decide) (by decide) rfl rfl rfl

end ExtensionStore
